import Mathlib

/-!
# jsjs: a verification development of `main.go`

The program reads URLs from standard input, fetches each one and scans the
body for secrets, URL references and DOM-XSS trigger strings.  This file
embeds the sequential parts of `main.go` (header validation, the dispatcher
loop, a worker's loop, the scan `extractURLsAndSecrets`, the aggregator loop)
as Lean functions and proves properties of them.

Conventions of the embedding.

* A Go `string` / `[]byte` holding text is a `List Char` (`Str`), the sequence
  of its code points; on such texts the byte-wise `strings.Index`,
  `strings.Contains`, `strings.Count` and `strings.Split` agree with their
  code-point-wise counterparts below.  Bodies that are not valid UTF-8 are
  outside the embedding.
* A Go `error` is represented by its `Error()` text.
* A goroutine's sends on `output` and `errs` are the list of `Event`s it
  produces, in program order.
* The external collaborators (`jsluice`, `encoding/json`, the HTTP client,
  `unicode.ToLower` outside ASCII) are fields of the structure `Deps`.
* The loop of `strings.Count` carries a bound on the number of iterations;
  `countLoop_fuel` and `count_unfold` show that the bound used is never
  reached.
-/

namespace Jsjs

/-- Text of a Go string. -/
abbrev Str := List Char

/-- Go error value, represented by its message. -/
abbrev GoError := Str

/-! ## The fragment of package `strings` used by `main.go` -/

/-- `strings.HasPrefix(s, prefix)`. -/
def hasPrefix (s pre : Str) : Bool :=
  match pre, s with
  | [], _ => true
  | _ :: _, [] => false
  | p :: ps, c :: cs => p == c && hasPrefix cs ps

/-- `strings.Index(s, substr)`: position of the first occurrence, `none` for -1. -/
def index (s sub : Str) : Option Nat :=
  if hasPrefix s sub then some 0
  else
    match s with
    | [] => none
    | _ :: t => (index t sub).map (· + 1)

/-- `strings.Contains(s, substr)`, which is `Index(s, substr) >= 0`. -/
def contains (s sub : Str) : Bool :=
  (index s sub).isSome

/-- The loop of `strings.Count`: find the next occurrence, count it, and go on
after its end.  `fuel` bounds the number of iterations. -/
def countLoop (sub : Str) : Nat → Str → Nat
  | 0, _ => 0
  | fuel + 1, s =>
    match index s sub with
    | none => 0
    | some i => 1 + countLoop sub fuel (s.drop (i + sub.length))

/-- `strings.Count(s, substr)`: the number of non-overlapping instances of
`substr` in `s`; for an empty `substr`, one more than the number of code
points of `s`. -/
def count (s sub : Str) : Nat :=
  if sub = [] then s.length + 1 else countLoop sub (s.length + 1) s

/-- The loop of `strings.genSplit`: at most `n` cuts at occurrences of `sep`,
the rest of the string is the last piece. -/
def splitLoop (sep : Str) : Nat → Str → List Str
  | 0, s => [s]
  | n + 1, s =>
    match index s sep with
    | none => [s]
    | some m => s.take m :: splitLoop sep n (s.drop (m + sep.length))

/-- `strings.Split(s, sep)` for a non-empty `sep`: `Count(s, sep) + 1` pieces. -/
def split (s sep : Str) : List Str :=
  splitLoop sep (count s sep) s

/-- Lower-casing of one code point: ASCII letters as `strings.ToLower` does,
the other code points by `unicode.ToLower`, which is the argument `uni`. -/
def toLowerRune (uni : Char → Char) (c : Char) : Char :=
  if c.toNat < 128 then
    (if 'A' ≤ c ∧ c ≤ 'Z' then Char.ofNat (c.toNat + 32) else c)
  else uni c

/-- `strings.ToLower(s)`. -/
def toLower (uni : Char → Char) (s : Str) : Str :=
  s.map (toLowerRune uni)

/-! ## Header validation (`main`, the loop over `Headers`) -/

/-- The Go map `HeadersMap`. -/
abbrev HeadersMap := Str → Option Str

/-- The assignment `m[k] = v`. -/
def HeadersMap.set (m : HeadersMap) (k v : Str) : HeadersMap :=
  fun k' => if k' = k then some v else m k'

/-- The separator of a header flag. -/
def colon : Str := [':']

/-- The text `fmt.Fprintf(os.Stderr, "invalid header: %s\n", header)` writes. -/
def invalidHeaderMsg (header : Str) : Str :=
  "invalid header: ".toList ++ header ++ ['\n']

/-- How the start-up phase of `main` ends: `os.Exit(code)` after writing
`stderr`, or it goes on with the headers map. -/
inductive Startup where
  | exit (code : Nat) (stderr : Str)
  | proceed (headers : HeadersMap)

/-- The loop `for _, header := range Headers` of `main`. -/
def parseHeaders : List Str → HeadersMap → Startup
  | [], m => Startup.proceed m
  | header :: rest, m =>
    match split header colon with
    | [k, v] => parseHeaders rest (m.set k v)
    | _ => Startup.exit 1 (invalidHeaderMsg header)

/-- The empty map `make(map[string]string)`. -/
def emptyHeaders : HeadersMap := fun _ => none

/-! ## The dispatcher (`main`, the loop over `input.Scan()`) -/

/-- What the dispatcher can touch: the jobs channel (the values sent, oldest
first, and whether it is closed), whether `main` is stuck in a send that no
worker will ever receive, and the two streams of the process. -/
structure World where
  jobs : List Str
  jobsClosed : Bool
  blocked : Bool
  stdout : List Str
  stderr : List Str
deriving DecidableEq, Repr

/-- The scheme test of the dispatcher. -/
def validScheme (url : Str) : Bool :=
  hasPrefix url "http://".toList || hasPrefix url "https://".toList

/-- The constant `bufio.MaxScanTokenSize`: the size the buffer of a
`bufio.Scanner` grows to at most. -/
def maxScanTokenSize : Nat := 64 * 1024

/-- The number of bytes of a text, in UTF-8. -/
def byteLen (s : Str) : Nat :=
  (s.map Char.utf8Size).sum

/-- The function `dropCR` of `bufio.ScanLines`: a line without its final carriage return. -/
def dropCR (data : Str) : Str :=
  if data.getLast? = some '\r' then data.dropLast else data

/-- The loop `for input.Scan()` over the lines of standard input (the text
between two newlines), with `Threads` workers started.  `input.Scan()` is
false at the end of the input and at the first line whose bytes fill the
buffer of the scanner.  `input.Text()` is the line without its final carriage
return.  The send `jobs <- url` on the unbuffered channel returns when a
worker receives the value; without a worker `main` stays in it. -/
def dispatchLoop (Threads : Int) : List Str → World → World
  | [], w => w
  | line :: rest, w =>
    if maxScanTokenSize ≤ byteLen line then w
    else if validScheme (dropCR line) then
      (if 0 < Threads then
        dispatchLoop Threads rest { w with jobs := w.jobs ++ [dropCR line] }
      else { w with blocked := true })
    else dispatchLoop Threads rest w

/-- The dispatcher: the loop, then `close(jobs)` when `main` gets there. -/
def dispatch (Threads : Int) (lines : List Str) (w : World) : World :=
  if (dispatchLoop Threads lines w).blocked then dispatchLoop Threads lines w
  else { dispatchLoop Threads lines w with jobsClosed := true }

/-- The world `main` starts the dispatcher in. -/
def World.init : World :=
  { jobs := [], jobsClosed := false, blocked := false, stdout := [], stderr := [] }

/-! ## The scan (`extractURLsAndSecrets`) -/

/-- A `jsluice.Secret`: the scan reads and writes `Filename` only, the other
fields are `rest`. -/
structure Secret (α : Type) where
  Filename : Str
  rest : α

/-- A `jsluice.URL`: the scan reads `URL` and writes `Filename`, the other
fields are `rest`. -/
structure URLMatch (β : Type) where
  URL : Str
  Filename : Str
  rest : β

/-- A send on one of the two channels shared with the aggregator. -/
inductive Event where
  | output (line : Str)
  | errs (err : GoError)
deriving DecidableEq, Repr

/-- The external collaborators of the scan and of the worker.
`π` is the type of parsed patterns, `σ` the state of an HTTP client. -/
structure Deps (α β π σ : Type) where
  /-- The function `jsluice.ParseUserPatterns`. -/
  parseUserPatterns : Str → Except GoError π
  /-- The secrets `analyzer.GetSecrets()` finds in a source with the given patterns added. -/
  getSecrets : Str → π → List (Secret α)
  /-- The URLs `analyzer.GetURLs()` finds in a source. -/
  getURLs : Str → List (URLMatch β)
  /-- The function `json.Marshal` at type `*jsluice.Secret`. -/
  marshalSecret : Secret α → Except GoError Str
  /-- The function `json.Marshal` at type `*jsluice.URL`. -/
  marshalURL : URLMatch β → Except GoError Str
  /-- The function `unicode.ToLower` (used outside ASCII). -/
  unicodeToLower : Char → Char
  /-- The method `client.Make(url, cfg)` with a GET request: the body or an error, and the client afterwards. -/
  make : σ → Str → HeadersMap → Except GoError Str × σ

/-- The built-in pattern definitions. -/
def patternsJson : Str :=
  ("[   \x7b     \"name\": \"base64\",     \"value\": \"(eyJ|YTo|Tzo|PD[89]|rO0)[%a-zA-Z0-9+/]+=\x7b0,2\x7d\",     \"severity\": \"low\"   \x7d,   \x7b     \"name\": \"genericSecret\",     \"key\": \"(secret|private|apiKey|token|api_key|apikey)\",     \"value\": \"[%a-zA-Z0-9+/]+\"   \x7d,  \x7b    \"name\": \"firebaseConfig\",    \"severity\": \"high\",    \"object\": [      \x7b\"key\": \"apiKey\", \"value\": \"^AIza.+\"\x7d,      \x7b\"key\": \"authDomain\"\x7d,      \x7b\"key\": \"projectId\"\x7d,      \x7b\"key\": \"storageBucket\"\x7d    ]  \x7d]").toList

/-- The loop over `analyzer.GetSecrets()`: tag, marshal, publish; a marshal
error skips the match. -/
def secretsLoop {α : Type} (marshal : Secret α → Except GoError Str) (filename : Str) :
    List (Secret α) → List Event
  | [] => []
  | m :: rest =>
    match marshal { m with Filename := filename } with
    | Except.error _ => secretsLoop marshal filename rest
    | Except.ok j => Event.output j :: secretsLoop marshal filename rest

/-- The loop over `analyzer.GetURLs()`, with the keys of the map `seen`:
tag, skip a URL already seen, record it, marshal, publish; a marshal error
goes to `errs`. -/
def urlsLoop {β : Type} (marshal : URLMatch β → Except GoError Str) (filename : Str) :
    List (URLMatch β) → List Str → List Event
  | [], _ => []
  | m :: rest, seen =>
    if m.URL ∈ seen then urlsLoop marshal filename rest seen
    else
      match marshal { m with Filename := filename } with
      | Except.error err => Event.errs err :: urlsLoop marshal filename rest (m.URL :: seen)
      | Except.ok j => Event.output j :: urlsLoop marshal filename rest (m.URL :: seen)

/-- The strings to find XSS sources. -/
def domXssStrings : List Str :=
  [ "location.search".toList,
    "location.hash".toList,
    "searchparam".toList,
    "urlsearch".toList,
    "urlparam".toList,
    "postMessage".toList,
    "istener('message".toList,
    "istener(\"message)".toList ]

/-- Decimal digits of a natural number, as `%d` prints it. -/
def fmtInt (n : Nat) : Str :=
  (Nat.toDigits 10 n)

/-- The line `fmt.Sprintf` builds for an XSS source: the three arguments are
inserted as they are. -/
def xssLine (filename domXssString : Str) (count : Nat) : Str :=
  "\x7b\"filename\": \"".toList ++ filename ++ "\", \"kind\": \"xssSource\", \"sourceFound\": \"".toList
    ++ domXssString ++ "\", \"count\": ".toList ++ fmtInt count ++ "\x7d".toList

/-- The loop over `domXssStrings`. -/
def xssLoop (uni : Char → Char) (filename source : Str) : List Str → List Event
  | [] => []
  | domXssString :: rest =>
    if contains (toLower uni source) domXssString then
      Event.output (xssLine filename domXssString (count (toLower uni source) domXssString))
        :: xssLoop uni filename source rest
    else xssLoop uni filename source rest

/-- The function `extractURLsAndSecrets`: the sends on `output` and `errs`, in order. -/
def extractURLsAndSecrets {α β π σ : Type} (d : Deps α β π σ) (filename source : Str) :
    List Event :=
  match d.parseUserPatterns patternsJson with
  | Except.error err => [Event.errs err]
  | Except.ok patterns =>
    secretsLoop d.marshalSecret filename (d.getSecrets source patterns)
      ++ urlsLoop d.marshalURL filename (d.getURLs source) []
      ++ xssLoop d.unicodeToLower filename source domXssStrings

/-! ## A worker (`main`, the loop over `jobs`) -/

/-- The function `getSource`: a GET request through the worker's client. -/
def getSource {α β π σ : Type} (d : Deps α β π σ) (url : Str) (client : σ)
    (headers : HeadersMap) : Except GoError Str × σ :=
  d.make client url headers

/-- What a worker does that others can observe: a call of `getSource` or a
send on `output` or `errs`. -/
inductive Act where
  | getSource (url : Str)
  | send (e : Event)
deriving DecidableEq, Repr

/-- The loop `for url := range jobs` of one worker, over the jobs it
receives, starting with its client in state `client`: the calls of
`getSource` and the sends, in program order. -/
def workerLoop {α β π σ : Type} (d : Deps α β π σ) (headers : HeadersMap) :
    List Str → σ → List Act
  | [], _ => []
  | url :: rest, client =>
    match getSource d url client headers with
    | (Except.error err, client') =>
      Act.getSource url :: Act.send (Event.errs err) :: workerLoop d headers rest client'
    | (Except.ok source, client') =>
      Act.getSource url :: (extractURLsAndSecrets d url source).map Act.send
        ++ workerLoop d headers rest client'

/-- The state of a worker's client after the loop has handled `jobs`. -/
def clientAfter {α β π σ : Type} (d : Deps α β π σ) (headers : HeadersMap) :
    List Str → σ → σ
  | [], client => client
  | url :: rest, client => clientAfter d headers rest (getSource d url client headers).2

/-! ## The aggregator (the goroutine with the `select` loop) -/

/-- What the `select` of the aggregator receives. -/
inductive Recv where
  | output (out : Str)
  | errs (err : GoError)
  | done
deriving DecidableEq, Repr

/-- The state of the aggregator: what it has written to the two streams,
whether it has returned, and what it has not received. -/
structure Agg where
  stdout : Str
  stderr : Str
  returned : Bool
  pending : List Recv
deriving DecidableEq, Repr

/-- The `for { select { ... } }` loop over the receptions, oldest first. -/
def aggregate : List Recv → Str → Str → Agg
  | [], out, err => { stdout := out, stderr := err, returned := false, pending := [] }
  | Recv.output o :: rest, out, err =>
    if o = [] then aggregate rest out err
    else aggregate rest (out ++ o ++ ['\n']) err
  | Recv.errs e :: rest, out, err =>
    aggregate rest out (err ++ "error: ".toList ++ e ++ ['\n'])
  | Recv.done :: rest, out, err =>
    { stdout := out, stderr := err, returned := true, pending := rest }

/-! ## Start of `main` up to `close(jobs)` -/

/-- How `main` stands after `close(jobs)`: it has left through `os.Exit`, or
the headers are parsed and the dispatcher has run. -/
inductive Run where
  | exited (code : Nat) (stderr : Str)
  | dispatched (headers : HeadersMap) (w : World)

/-- The function `main` up to `close(jobs)`, without the goroutines it
starts: header validation, then the dispatcher. -/
def mainUntilClose (Threads : Int) (Headers lines : List Str) : Run :=
  match parseHeaders Headers emptyHeaders with
  | Startup.exit code msg => Run.exited code msg
  | Startup.proceed m => Run.dispatched m (dispatch Threads lines World.init)

/-! ## Reference notions the claims are stated with -/

/-- Reference notion: the texts `input.Text()` gives for the lines of standard
input: the lines before the first one of `maxScanTokenSize` bytes or more,
each without its final carriage return. -/
def scannedLines (lines : List Str) : List Str :=
  (lines.takeWhile (fun l => decide (byteLen l < maxScanTokenSize))).map dropCR

/-- Reference notion: the number a sequence of decimal digits stands for. -/
def digitsValue (s : Str) : Nat :=
  s.foldl (fun acc c => 10 * acc + (c.toNat - 48)) 0

/-- Reference notion: the number a decimal numeral stands for; a numeral is a
non-empty sequence of decimal digits without a leading zero, but for `0`. -/
def decimalValue (s : Str) : Option Nat :=
  if s ≠ [] ∧ s.all (fun c => decide ('0' ≤ c ∧ c ≤ '9')) = true
      ∧ (s.length = 1 ∨ s.head? ≠ some '0') then
    some (digitsValue s)
  else none

/-- Reference notion: `ps` are positions of occurrences of `sub` in `s`, from
left to right, the first at `lo` or later and each at or after the end of the
one before it, so that no two of them overlap. -/
def nonOverlapping (s sub : Str) : Nat → List Nat → Bool
  | _, [] => true
  | lo, p :: ps =>
    decide (lo ≤ p) && hasPrefix (s.drop p) sub && nonOverlapping s sub (p + sub.length) ps

/-- Reference notion: the start of an `xssSource` line for a document and a
trigger string, up to the place of the count. -/
def xssHead (filename t : Str) : Str :=
  "\x7b\"filename\": \"".toList ++ filename
    ++ "\", \"kind\": \"xssSource\", \"sourceFound\": \"".toList ++ t ++ "\", \"count\": ".toList

/-- Reference notion: the event is an `xssSource` record of document
`filename` for the trigger string `t`, whatever its count. -/
def isXssRecordFor (filename t : Str) : Event → Bool
  | Event.output line => hasPrefix line (xssHead filename t)
  | Event.errs _ => false

/-- Reference notion: what the aggregator prints on standard output for one reception. -/
def outLine : Recv → Str
  | Recv.output o => if o = [] then [] else o ++ ['\n']
  | _ => []

/-- Reference notion: what the aggregator prints on standard error for one reception. -/
def errLine : Recv → Str
  | Recv.errs e => "error: ".toList ++ e ++ ['\n']
  | _ => []

/-- Reference notion: the reception is not the done signal. -/
def notDone : Recv → Bool
  | Recv.done => false
  | _ => true

/-- Reference notion: the text of a header flag before its first colon. -/
def headerKey (header : Str) : Str :=
  header.takeWhile (fun c => c != ':')

/-- Reference notion: the text of a header flag after its first colon. -/
def headerValue (header : Str) : Str :=
  (header.dropWhile (fun c => c != ':')).tail

/-- Reference notion: the map after the assignments of a list of header flags, in order. -/
def assignHeaders (Headers : List Str) (m : HeadersMap) : HeadersMap :=
  Headers.foldl (fun m h => m.set (headerKey h) (headerValue h)) m

/-- Reference notion: the keys of the map `seen` after the loop over the URL
matches has handled `ms`, starting from the keys `seen`. -/
def seenAfter {β : Type} : List (URLMatch β) → List Str → List Str
  | [], seen => seen
  | m :: rest, seen =>
    if m.URL ∈ seen then seenAfter rest seen else seenAfter rest (m.URL :: seen)

/-- Reference notion: the URL matches the loop does not skip, that is, those
whose URL is not in `seen` and does not occur earlier in the list. -/
def keptURLs {β : Type} : List (URLMatch β) → List Str → List (URLMatch β)
  | [], _ => []
  | m :: rest, seen =>
    if m.URL ∈ seen then keptURLs rest seen else m :: keptURLs rest (m.URL :: seen)

/-- Reference notion: the send for a URL match that is not skipped: its JSON
encoding, tagged with the document, on `output`, or the encoding error on `errs`. -/
def publishURL {β : Type} (marshal : URLMatch β → Except GoError Str) (filename : Str)
    (m : URLMatch β) : Event :=
  match marshal { m with Filename := filename } with
  | Except.error err => Event.errs err
  | Except.ok j => Event.output j

/-- Reference notion: the sends for a secret match: its JSON encoding, tagged
with the document, on `output`, or nothing when the encoding fails. -/
def publishSecret {α : Type} (marshal : Secret α → Except GoError Str) (filename : Str)
    (m : Secret α) : List Event :=
  match marshal { m with Filename := filename } with
  | Except.error _ => []
  | Except.ok j => [Event.output j]

/-- Reference notion: the URL of a call of `getSource`, nothing for a send. -/
def fetchedURL : Act → Option Str
  | Act.getSource url => some url
  | Act.send _ => none

/-! ## Reference notion: JSON texts

A recogniser of the JSON grammar of RFC 8259, as a pushdown automaton that
reads the text once from left to right.  It is the meaning of "valid JSON"
in the statements about the lines a scan publishes. -/

/-- The kind of an open bracket. -/
inductive JCtx where
  | obj
  | arr
deriving DecidableEq, Repr

/-- Where the automaton stands in the grammar. -/
inductive JMode where
  /-- A value is expected. -/
  | value
  /-- After `[`: a value or `]`. -/
  | valueOrEnd
  /-- After the opening brace of an object: a member name or the closing brace. -/
  | keyOrEnd
  /-- After `,` in an object: a member name. -/
  | key
  /-- After a member name: `:`. -/
  | colon
  /-- After a value: `,`, a closing bracket, or the end of the text. -/
  | after
  /-- Inside a string (a member name when `isKey`): `esc` is 0 in plain text,
  1 after a backslash, and one more than the number of hexadecimal digits
  still expected after a backslash and `u`. -/
  | str (isKey : Bool) (esc : Nat)
  /-- Inside `true`, `false` or `null`, with the characters still expected. -/
  | lit (rest : Str)
  /-- Inside a number: 0 after `-`, 1 after a leading `0`, 2 in the integer
  digits, 3 after `.`, 4 in the fraction digits, 5 after `e`, 6 after the sign
  of the exponent, 7 in the exponent digits. -/
  | num (st : Nat)
deriving DecidableEq, Repr

/-- The state of the automaton: the open brackets, innermost first, and the mode. -/
structure JState where
  stack : List JCtx
  mode : JMode
deriving DecidableEq, Repr

/-- JSON white space. -/
def isWs (c : Char) : Bool :=
  c == ' ' || c == '\t' || c == '\n' || c == '\r'

/-- A decimal digit. -/
def isDigit (c : Char) : Bool :=
  decide ('0' ≤ c ∧ c ≤ '9')

/-- A hexadecimal digit. -/
def isHex (c : Char) : Bool :=
  isDigit c || decide ('a' ≤ c ∧ c ≤ 'f') || decide ('A' ≤ c ∧ c ≤ 'F')

/-- The first character of a value. -/
def startValue (stack : List JCtx) (c : Char) : Option JState :=
  if c = '\x7b' then some ⟨JCtx.obj :: stack, JMode.keyOrEnd⟩
  else if c = '[' then some ⟨JCtx.arr :: stack, JMode.valueOrEnd⟩
  else if c = '"' then some ⟨stack, JMode.str false 0⟩
  else if c = 't' then some ⟨stack, JMode.lit ['r', 'u', 'e']⟩
  else if c = 'f' then some ⟨stack, JMode.lit ['a', 'l', 's', 'e']⟩
  else if c = 'n' then some ⟨stack, JMode.lit ['u', 'l', 'l']⟩
  else if c = '-' then some ⟨stack, JMode.num 0⟩
  else if c = '0' then some ⟨stack, JMode.num 1⟩
  else if isDigit c then some ⟨stack, JMode.num 2⟩
  else none

/-- The character after a complete value. -/
def afterValue (stack : List JCtx) (c : Char) : Option JState :=
  if isWs c then some ⟨stack, JMode.after⟩
  else
    match stack with
    | [] => none
    | JCtx.obj :: r =>
      if c = ',' then some ⟨JCtx.obj :: r, JMode.key⟩
      else if c = '\x7d' then some ⟨r, JMode.after⟩
      else none
    | JCtx.arr :: r =>
      if c = ',' then some ⟨JCtx.arr :: r, JMode.value⟩
      else if c = ']' then some ⟨r, JMode.after⟩
      else none

/-- A number may end in this state. -/
def numMayEnd (st : Nat) : Bool :=
  st == 1 || st == 2 || st == 4 || st == 7

/-- One character inside a number, or the character that ends it. -/
def stepNum (stack : List JCtx) (st : Nat) (c : Char) : Option JState :=
  if (st == 0) && c == '0' then some ⟨stack, JMode.num 1⟩
  else if (st == 0 || st == 2) && isDigit c then some ⟨stack, JMode.num 2⟩
  else if (st == 1 || st == 2) && c == '.' then some ⟨stack, JMode.num 3⟩
  else if (st == 3 || st == 4) && isDigit c then some ⟨stack, JMode.num 4⟩
  else if (st == 1 || st == 2 || st == 4) && (c == 'e' || c == 'E') then
    some ⟨stack, JMode.num 5⟩
  else if (st == 5) && (c == '+' || c == '-') then some ⟨stack, JMode.num 6⟩
  else if (st == 5 || st == 6 || st == 7) && isDigit c then some ⟨stack, JMode.num 7⟩
  else if numMayEnd st then afterValue stack c
  else none

/-- One character inside a string. -/
def stepStr (stack : List JCtx) (isKey : Bool) (esc : Nat) (c : Char) : Option JState :=
  match esc with
  | 0 =>
    if c = '"' then some ⟨stack, if isKey then JMode.colon else JMode.after⟩
    else if c = '\\' then some ⟨stack, JMode.str isKey 1⟩
    else if c.toNat < 32 then none
    else some ⟨stack, JMode.str isKey 0⟩
  | 1 =>
    if c = 'u' then some ⟨stack, JMode.str isKey 5⟩
    else if c ∈ ['"', '\\', '/', 'b', 'f', 'n', 'r', 't'] then some ⟨stack, JMode.str isKey 0⟩
    else none
  | n + 2 =>
    if isHex c then some ⟨stack, JMode.str isKey (if n = 0 then 0 else n + 1)⟩ else none

/-- One step of the automaton. -/
def jsonStep (s : JState) (c : Char) : Option JState :=
  match s.mode with
  | JMode.value => if isWs c then some s else startValue s.stack c
  | JMode.valueOrEnd =>
    if isWs c then some s
    else if c = ']' then some ⟨s.stack.tail, JMode.after⟩
    else startValue s.stack c
  | JMode.keyOrEnd =>
    if isWs c then some s
    else if c = '\x7d' then some ⟨s.stack.tail, JMode.after⟩
    else if c = '"' then some ⟨s.stack, JMode.str true 0⟩
    else none
  | JMode.key =>
    if isWs c then some s
    else if c = '"' then some ⟨s.stack, JMode.str true 0⟩
    else none
  | JMode.colon =>
    if isWs c then some s
    else if c = ':' then some ⟨s.stack, JMode.value⟩
    else none
  | JMode.after => afterValue s.stack c
  | JMode.str isKey esc => stepStr s.stack isKey esc c
  | JMode.lit [] => none
  | JMode.lit (x :: r) =>
    if c = x then some ⟨s.stack, if r = [] then JMode.after else JMode.lit r⟩ else none
  | JMode.num st => stepNum s.stack st c

/-- The automaton run over a text; `none` when a character is rejected. -/
def jsonRun : JState → Str → Option JState
  | s, [] => some s
  | s, c :: r =>
    match jsonStep s c with
    | none => none
    | some s' => jsonRun s' r

/-- The text is one complete JSON value, with white space around it at most. -/
def isJson (text : Str) : Bool :=
  match jsonRun ⟨[], JMode.value⟩ text with
  | none => false
  | some s =>
    s.stack.isEmpty &&
      (match s.mode with
        | JMode.after => true
        | JMode.num st => numMayEnd st
        | _ => false)

/-- The text is a JSON object. -/
def isJsonObject (text : Str) : Bool :=
  isJson text && (text.dropWhile isWs).head? == some '\x7b'

/-- The fixed text that follows the URL in the `xssSource` line of the trigger
`istener("message)`, up to the place of the count. -/
def xssQuoteTail : Str :=
  "\", \"kind\": \"xssSource\", \"sourceFound\": \"istener(\"message)\", \"count\": ".toList

/-- The automaton is not inside a literal that expects a double quote (it
never is, on any text read from its first state). -/
def litOk : JMode → Bool
  | JMode.lit r => !(r.contains '"')
  | _ => true

/-! ## Sample collaborators, to run the embedding on concrete inputs -/

/-- Sample matches: the `rest` of a match says whether `json.Marshal` accepts it. -/
def sampleSecrets : List (Secret Bool) :=
  [⟨[], true⟩, ⟨[], false⟩, ⟨[], true⟩]

/-- Sample URL matches: `/a` twice, `/b` once, `/c` twice with a first occurrence that does not marshal. -/
def sampleURLs : List (URLMatch Bool) :=
  [⟨"/a".toList, [], true⟩, ⟨"/b".toList, [], true⟩, ⟨"/a".toList, [], true⟩,
   ⟨"/c".toList, [], false⟩, ⟨"/c".toList, [], true⟩]

/-- Sample collaborators: the patterns parse, every source has the sample
matches, marshalling prints the fields and fails on a match flagged `false`,
and the client (a request counter) fails on the URL `http://down`. -/
def sampleDeps : Deps Bool Bool Unit Nat where
  parseUserPatterns := fun _ => Except.ok ()
  getSecrets := fun _ _ => sampleSecrets
  getURLs := fun _ => sampleURLs
  marshalSecret := fun m =>
    if m.rest then Except.ok ("secret@".toList ++ m.Filename) else Except.error "unsupported".toList
  marshalURL := fun m =>
    if m.rest then Except.ok (m.URL ++ "@".toList ++ m.Filename) else Except.error "unsupported".toList
  unicodeToLower := id
  make := fun client url _ =>
    (if url = "http://down".toList then Except.error "refused".toList
      else Except.ok "var u = location.hash".toList, client + 1)

/-- Sample document: `location.search` three times in three casings, no `location.hash`. -/
def sampleSource : Str :=
  "x = location.search + Location.Search + LOCATION.SEARCH".toList

/-- Sample job. -/
def sampleJob : Str := "http://a".toList

/-- Sample document with the last trigger string of the list. -/
def quoteSource : Str :=
  "w.addEventListener(\"message)".toList

/-- Sample job whose URL has a double quote. -/
def quoteJob : Str := "http://a/?q=\"".toList

/-- Sample line of 65536 bytes. -/
def longLine : Str := List.replicate 65536 'x'

/-- Sample input: a job, a line of 65536 bytes, a job. -/
def longInput : List Str := [sampleJob, longLine, "http://b".toList]

/-! ## Facts about the string functions -/

theorem hasPrefix_iff (s pre : Str) : hasPrefix s pre = true ↔ pre <+: s := by
  induction pre generalizing s with
  | nil => simp [hasPrefix]
  | cons p ps ih =>
    cases s with
    | nil => simp [hasPrefix]
    | cons c cs =>
      simp only [hasPrefix, Bool.and_eq_true, beq_iff_eq, ih, List.cons_prefix_cons]

theorem hasPrefix_append (a s pre : Str) : hasPrefix (a ++ s) (a ++ pre) = hasPrefix s pre := by
  induction a with
  | nil => rfl
  | cons c a ih => simp [hasPrefix, ih]

theorem index_nil_sub (sub : Str) (h : sub ≠ []) : index [] sub = none := by
  cases sub with
  | nil => exact absurd rfl h
  | cons p ps => simp [index, hasPrefix]

theorem index_cons (c : Char) (t sub : Str) :
    index (c :: t) sub = if hasPrefix (c :: t) sub then some 0 else (index t sub).map (· + 1) := by
  rw [index]

/-- What `index` finds is an occurrence, and the leftmost one. -/
theorem index_eq_some (s sub : Str) (i : Nat) (h : index s sub = some i) :
    i ≤ s.length ∧ sub <+: s.drop i ∧ ∀ j < i, ¬ sub <+: s.drop j := by
  induction s generalizing i with
  | nil =>
    rw [index] at h
    split at h
    · rename_i hp
      cases h
      exact ⟨Nat.le_refl _, (hasPrefix_iff _ _).1 hp, fun j hj => absurd hj (Nat.not_lt_zero j)⟩
    · cases h
  | cons c t ih =>
    rw [index_cons] at h
    split at h
    · rename_i hp
      cases h
      exact ⟨Nat.zero_le _, (hasPrefix_iff _ _).1 hp, fun j hj => absurd hj (Nat.not_lt_zero j)⟩
    · rename_i hp
      cases hi : index t sub with
      | none => rw [hi] at h; cases h
      | some k =>
        rw [hi] at h
        simp only [Option.map_some', Option.some.injEq] at h
        subst h
        obtain ⟨h1, h2, h3⟩ := ih k hi
        refine ⟨Nat.succ_le_succ h1, by simpa using h2, ?_⟩
        intro j hj
        cases j with
        | zero => simpa [hasPrefix_iff] using hp
        | succ j => simpa using h3 j (by omega)

/-- When `index` finds nothing there is no occurrence at any position. -/
theorem index_eq_none (s sub : Str) (h : index s sub = none) (j : Nat) :
    ¬ sub <+: s.drop j := by
  induction s generalizing j with
  | nil =>
    rw [index] at h
    split at h
    · cases h
    · rename_i hp
      simpa [hasPrefix_iff] using hp
  | cons c t ih =>
    rw [index_cons] at h
    split at h
    · cases h
    · rename_i hp
      have ht : index t sub = none := by
        cases hi : index t sub with
        | none => rfl
        | some k => rw [hi] at h; cases h
      cases j with
      | zero => simpa [hasPrefix_iff] using hp
      | succ j => simpa using ih ht j

theorem infix_iff_prefix_drop (s sub : Str) : sub <:+: s ↔ ∃ j, sub <+: s.drop j := by
  constructor
  · rintro ⟨a, b, rfl⟩
    exact ⟨a.length, by simp⟩
  · rintro ⟨j, hj⟩
    exact (hj.isInfix).trans (List.drop_suffix j s).isInfix

/-- `contains` is substring containment. -/
theorem contains_iff (s sub : Str) : contains s sub = true ↔ sub <:+: s := by
  rw [infix_iff_prefix_drop]
  unfold contains
  cases h : index s sub with
  | none =>
    simp only [Option.isSome_none, Bool.false_eq_true, false_iff, not_exists]
    exact index_eq_none s sub h
  | some i => simpa using ⟨i, (index_eq_some s sub i h).2.1⟩

/-! ### `count` -/

theorem index_some_ne_nil (s sub : Str) (i : Nat) (hsub : sub ≠ [])
    (h : index s sub = some i) : s ≠ [] := by
  intro hs
  subst hs
  rw [index_nil_sub sub hsub] at h
  cases h

theorem drop_length_lt (s sub : Str) (i fuel : Nat) (hsub : sub ≠ [])
    (h : index s sub = some i) (hf : s.length < fuel + 1) :
    (s.drop (i + sub.length)).length < fuel := by
  have h1 : s ≠ [] := index_some_ne_nil s sub i hsub h
  have h2 : 0 < s.length := List.length_pos.2 h1
  have h3 : 0 < sub.length := List.length_pos.2 hsub
  rw [List.length_drop]
  omega

/-- More fuel than the length of the string never changes the result of the loop of `count`. -/
theorem countLoop_fuel (sub : Str) (hsub : sub ≠ []) (fuel fuel' : Nat) (s : Str)
    (hf : s.length < fuel) (hf' : s.length < fuel') :
    countLoop sub fuel s = countLoop sub fuel' s := by
  induction fuel generalizing fuel' s with
  | zero => exact absurd hf (Nat.not_lt_zero _)
  | succ n ih =>
    cases fuel' with
    | zero => exact absurd hf' (Nat.not_lt_zero _)
    | succ n' =>
      simp only [countLoop]
      cases h : index s sub with
      | none => rfl
      | some i =>
        simp only
        rw [ih n' (s.drop (i + sub.length)) (drop_length_lt s sub i n hsub h hf)
          (drop_length_lt s sub i n' hsub h hf')]

theorem countLoop_succ (sub : Str) (fuel : Nat) (s : Str) :
    countLoop sub (fuel + 1) s =
      match index s sub with
      | none => 0
      | some i => 1 + countLoop sub fuel (s.drop (i + sub.length)) := rfl

/-- The loop of `strings.Count`, without fuel: nothing when there is no
occurrence, else one more than the count after the end of the first one. -/
theorem count_unfold (s sub : Str) (hsub : sub ≠ []) :
    count s sub =
      match index s sub with
      | none => 0
      | some i => 1 + count (s.drop (i + sub.length)) sub := by
  unfold count
  rw [if_neg hsub, countLoop_succ]
  cases h : index s sub with
  | none => rfl
  | some i =>
    show 1 + countLoop sub s.length (s.drop (i + sub.length)) =
      1 + (if sub = [] then _ else countLoop sub ((s.drop (i + sub.length)).length + 1)
        (s.drop (i + sub.length)))
    rw [if_neg hsub, countLoop_fuel sub hsub s.length ((s.drop (i + sub.length)).length + 1)
      (s.drop (i + sub.length)) (drop_length_lt s sub i s.length hsub h (Nat.lt_succ_self _))
      (Nat.lt_succ_self _)]

theorem count_of_index_none (s sub : Str) (hsub : sub ≠ []) (h : index s sub = none) :
    count s sub = 0 := by
  rw [count_unfold s sub hsub, h]

theorem count_of_index_some (s sub : Str) (hsub : sub ≠ []) (i : Nat)
    (h : index s sub = some i) :
    count s sub = 1 + count (s.drop (i + sub.length)) sub := by
  rw [count_unfold s sub hsub, h]

/-- The count is positive exactly when the string contains the substring. -/
theorem count_pos_iff (s sub : Str) (hsub : sub ≠ []) :
    0 < count s sub ↔ contains s sub = true := by
  rw [count_unfold s sub hsub]
  unfold contains
  cases h : index s sub with
  | none => simp
  | some i => simp

theorem nonOverlapping_cons (s sub : Str) (lo p : Nat) (ps : List Nat) :
    nonOverlapping s sub lo (p :: ps) = true ↔
      lo ≤ p ∧ sub <+: s.drop p ∧ nonOverlapping s sub (p + sub.length) ps = true := by
  simp [nonOverlapping, hasPrefix_iff, and_assoc]

theorem nonOverlapping_mono (s sub : Str) (lo lo' : Nat) (ps : List Nat) (h : lo' ≤ lo)
    (hps : nonOverlapping s sub lo ps = true) : nonOverlapping s sub lo' ps = true := by
  cases ps with
  | nil => rfl
  | cons p ps =>
    rw [nonOverlapping_cons] at hps ⊢
    exact ⟨Nat.le_trans h hps.1, hps.2⟩

theorem nonOverlapping_drop (s sub : Str) (k lo : Nat) (ps : List Nat) (hk : k ≤ lo)
    (hps : nonOverlapping s sub lo ps = true) :
    nonOverlapping (s.drop k) sub (lo - k) (ps.map (· - k)) = true := by
  induction ps generalizing lo with
  | nil => rfl
  | cons p ps ih =>
    rw [nonOverlapping_cons] at hps
    obtain ⟨h1, h2, h3⟩ := hps
    rw [List.map_cons, nonOverlapping_cons]
    refine ⟨Nat.sub_le_sub_right h1 k, ?_, ?_⟩
    · rw [List.drop_drop]
      have : k + (p - k) = p := by omega
      rw [this]
      exact h2
    · have h4 := ih (p + sub.length) (by omega) h3
      have : p + sub.length - k = p - k + sub.length := by omega
      rw [this] at h4
      exact h4

theorem nonOverlapping_undrop (s sub : Str) (k lo : Nat) (ps : List Nat)
    (hps : nonOverlapping (s.drop k) sub lo ps = true) :
    nonOverlapping s sub (lo + k) (ps.map (· + k)) = true := by
  induction ps generalizing lo with
  | nil => rfl
  | cons p ps ih =>
    rw [nonOverlapping_cons] at hps
    obtain ⟨h1, h2, h3⟩ := hps
    rw [List.map_cons, nonOverlapping_cons]
    refine ⟨Nat.add_le_add_right h1 k, ?_, ?_⟩
    · rw [List.drop_drop] at h2
      have : k + p = p + k := by omega
      rw [this] at h2
      exact h2
    · have h4 := ih (p + sub.length) h3
      have : p + sub.length + k = p + k + sub.length := by omega
      rw [this] at h4
      exact h4

/-- No family of non-overlapping occurrences is larger than the count. -/
theorem nonOverlapping_le_count (sub : Str) (hsub : sub ≠ []) (n : Nat) (s : Str)
    (hn : s.length ≤ n) (ps : List Nat) (hps : nonOverlapping s sub 0 ps = true) :
    ps.length ≤ count s sub := by
  induction n generalizing s ps with
  | zero =>
    have hs : s = [] := List.length_eq_zero.1 (Nat.le_zero.1 hn)
    subst hs
    cases ps with
    | nil => exact Nat.zero_le _
    | cons p ps =>
      rw [nonOverlapping_cons] at hps
      have := hps.2.1
      simp only [List.drop_nil, List.prefix_nil] at this
      exact absurd this hsub
  | succ n ih =>
    cases ps with
    | nil => exact Nat.zero_le _
    | cons p ps =>
      rw [nonOverlapping_cons] at hps
      obtain ⟨_, h2, h3⟩ := hps
      cases h : index s sub with
      | none => exact absurd h2 (index_eq_none s sub h p)
      | some i =>
        rw [count_of_index_some s sub hsub i h]
        obtain ⟨_, _, hmin⟩ := index_eq_some s sub i h
        have hip : i ≤ p := by
          by_contra hlt
          exact hmin p (by omega) h2
        have h5 := nonOverlapping_drop s sub (i + sub.length) (p + sub.length) ps (by omega) h3
        have h6 := nonOverlapping_mono _ sub _ 0 _ (Nat.zero_le _) h5
        have hlen : (s.drop (i + sub.length)).length ≤ n := by
          have := drop_length_lt s sub i (n + 1) hsub h (by omega)
          omega
        have h7 := ih (s.drop (i + sub.length)) hlen _ h6
        simp only [List.length_map] at h7
        simp only [List.length_cons]
        omega

/-- The occurrences the loop of `count` counts form a family of non-overlapping occurrences. -/
theorem exists_nonOverlapping_count (sub : Str) (hsub : sub ≠ []) (n : Nat) (s : Str)
    (hn : s.length ≤ n) :
    ∃ ps, nonOverlapping s sub 0 ps = true ∧ ps.length = count s sub := by
  induction n generalizing s with
  | zero =>
    have hs : s = [] := List.length_eq_zero.1 (Nat.le_zero.1 hn)
    subst hs
    refine ⟨[], rfl, ?_⟩
    rw [count_of_index_none [] sub hsub (index_nil_sub sub hsub)]
    rfl
  | succ n ih =>
    cases h : index s sub with
    | none => exact ⟨[], rfl, (count_of_index_none s sub hsub h).symm⟩
    | some i =>
      rw [count_of_index_some s sub hsub i h]
      have hlen : (s.drop (i + sub.length)).length ≤ n := by
        have := drop_length_lt s sub i (n + 1) hsub h (by omega)
        omega
      obtain ⟨ps, hps, hl⟩ := ih (s.drop (i + sub.length)) hlen
      refine ⟨i :: ps.map (· + (i + sub.length)), ?_, ?_⟩
      · rw [nonOverlapping_cons]
        refine ⟨Nat.zero_le _, (index_eq_some s sub i h).2.1, ?_⟩
        have := nonOverlapping_undrop s sub (i + sub.length) 0 ps hps
        simpa using this
      · simp only [List.length_cons, List.length_map, hl]
        omega

/-! ### The DOM-XSS step -/

theorem xssLoop_eq (uni : Char → Char) (filename source : Str) (ts : List Str) :
    xssLoop uni filename source ts =
      (ts.filter (fun t => contains (toLower uni source) t)).map
        (fun t => Event.output (xssLine filename t (count (toLower uni source) t))) := by
  induction ts with
  | nil => rfl
  | cons t ts ih =>
    by_cases h : contains (toLower uni source) t = true
    · simp [xssLoop, h, ih]
    · simp [xssLoop, h, ih]

theorem domXssStrings_nodup : domXssStrings.Nodup := by
  decide

theorem domXssStrings_ne_nil (t : Str) (ht : t ∈ domXssStrings) : t ≠ [] := by
  intro h
  subst h
  revert ht
  decide

/-- A line for one trigger string is never a record for another one. -/
theorem isXssRecordFor_xssLine (filename t t' : Str) (n : Nat)
    (ht : t ∈ domXssStrings) (ht' : t' ∈ domXssStrings) :
    isXssRecordFor filename t (Event.output (xssLine filename t' n)) = decide (t' = t) := by
  have key : hasPrefix (t' ++ ("\", \"count\": ".toList ++ (fmtInt n ++ "\x7d".toList)))
      (t ++ "\", \"count\": ".toList) = decide (t' = t) := by
    generalize fmtInt n ++ "\x7d".toList = r
    simp only [domXssStrings, List.mem_cons, List.mem_singleton, List.not_mem_nil, or_false] at ht ht'
    rcases ht with rfl | rfl | rfl | rfl | rfl | rfl | rfl | rfl <;>
      rcases ht' with rfl | rfl | rfl | rfl | rfl | rfl | rfl | rfl <;>
      simp [hasPrefix]
  have assoc1 : xssLine filename t' n =
      ("\x7b\"filename\": \"".toList ++ filename
        ++ "\", \"kind\": \"xssSource\", \"sourceFound\": \"".toList)
        ++ (t' ++ ("\", \"count\": ".toList ++ (fmtInt n ++ "\x7d".toList))) := by
    simp [xssLine, List.append_assoc]
  have assoc2 : xssHead filename t =
      ("\x7b\"filename\": \"".toList ++ filename
        ++ "\", \"kind\": \"xssSource\", \"sourceFound\": \"".toList)
        ++ (t ++ "\", \"count\": ".toList) := by
    simp [xssHead, List.append_assoc]
  show hasPrefix (xssLine filename t' n) (xssHead filename t) = decide (t' = t)
  rw [assoc1, assoc2, hasPrefix_append, key]

theorem extract_of_parse {α β π σ : Type} (d : Deps α β π σ) (filename source : Str) (p : π)
    (hparse : d.parseUserPatterns patternsJson = Except.ok p) :
    extractURLsAndSecrets d filename source =
      secretsLoop d.marshalSecret filename (d.getSecrets source p)
        ++ urlsLoop d.marshalURL filename (d.getURLs source) []
        ++ xssLoop d.unicodeToLower filename source domXssStrings := by
  unfold extractURLsAndSecrets
  rw [hparse]

theorem countP_eq_of_not_mem {γ : Type} [DecidableEq γ] (l : List γ) (t : γ) (h : t ∉ l) :
    l.countP (fun x => decide (x = t)) = 0 := by
  rw [List.countP_eq_zero]
  intro x hx
  simp only [decide_eq_true_eq]
  intro hxt
  exact h (hxt ▸ hx)

theorem countP_eq_filter_nodup {γ : Type} [DecidableEq γ] (l : List γ) (q : γ → Bool) (t : γ)
    (hl : l.Nodup) (ht : t ∈ l) :
    (l.filter q).countP (fun x => decide (x = t)) = if q t then 1 else 0 := by
  induction l with
  | nil => cases ht
  | cons a l ih =>
    have hnd := List.nodup_cons.1 hl
    by_cases hat : a = t
    · subst hat
      have h0 : (l.filter q).countP (fun x => decide (x = a)) = 0 :=
        countP_eq_of_not_mem _ a (fun hm => hnd.1 (List.mem_filter.1 hm).1)
      by_cases hq : q a = true
      · rw [List.filter_cons_of_pos hq, List.countP_cons_of_pos _ _ (by simp), h0, if_pos hq]
      · rw [List.filter_cons_of_neg hq, h0, if_neg hq]
    · have htl : t ∈ l := by
        rcases List.mem_cons.1 ht with h | h
        · exact absurd h.symm hat
        · exact h
      by_cases hq : q a = true
      · rw [List.filter_cons_of_pos hq, List.countP_cons_of_neg _ _ (by simpa using hat)]
        exact ih hnd.2 htl
      · rw [List.filter_cons_of_neg hq]
        exact ih hnd.2 htl

theorem xss_countP (uni : Char → Char) (filename source t : Str) (ht : t ∈ domXssStrings) :
    (xssLoop uni filename source domXssStrings).countP (isXssRecordFor filename t) =
      if contains (toLower uni source) t then 1 else 0 := by
  rw [xssLoop_eq, List.countP_map]
  have hfun : ∀ t' ∈ domXssStrings.filter (fun t => contains (toLower uni source) t),
      ((isXssRecordFor filename t) ∘
        (fun t => Event.output (xssLine filename t (count (toLower uni source) t)))) t' = true ↔
      (fun t' => decide (t' = t)) t' = true := by
    intro t' ht'
    have hm : t' ∈ domXssStrings := (List.mem_filter.1 ht').1
    simp only [Function.comp, isXssRecordFor_xssLine filename t t' _ ht hm]
  rw [List.countP_congr hfun]
  rw [countP_eq_filter_nodup domXssStrings (fun t => contains (toLower uni source) t) t
    domXssStrings_nodup ht]

theorem xss_mem (uni : Char → Char) (filename source t : Str) (ht : t ∈ domXssStrings)
    (hc : contains (toLower uni source) t = true) :
    Event.output (xssLine filename t (count (toLower uni source) t)) ∈
      xssLoop uni filename source domXssStrings := by
  rw [xssLoop_eq]
  exact List.mem_map.2 ⟨t, List.mem_filter.2 ⟨ht, hc⟩, rfl⟩

/-! ### The count as `%d` prints it -/

theorem digitChar_digit (k : Nat) (h : k < 10) :
    decide ('0' ≤ k.digitChar ∧ k.digitChar ≤ '9') = true ∧ k.digitChar.toNat - 48 = k ∧
      (k ≠ 0 → k.digitChar ≠ '0') := by
  interval_cases k <;> decide

theorem digitsValue_append_single (pre : Str) (c : Char) :
    digitsValue (pre ++ [c]) = 10 * digitsValue pre + (c.toNat - 48) := by
  simp [digitsValue, List.foldl_append]

theorem toDigitsCore_spec (fuel n : Nat) (ds : Str) (h : n < fuel) :
    ∃ pre : Str, Nat.toDigitsCore 10 fuel n ds = pre ++ ds ∧ pre ≠ [] ∧
      pre.all (fun c => decide ('0' ≤ c ∧ c ≤ '9')) = true ∧ digitsValue pre = n ∧
      (n ≠ 0 → pre.head? ≠ some '0') ∧ (n = 0 → pre = ['0']) := by
  induction fuel generalizing n ds with
  | zero => exact absurd h (Nat.not_lt_zero _)
  | succ fuel ih =>
    have hd := digitChar_digit (n % 10) (Nat.mod_lt _ (by decide))
    by_cases hq : n / 10 = 0
    · refine ⟨[(n % 10).digitChar], ?_, by simp, ?_, ?_, ?_, ?_⟩
      · simp [Nat.toDigitsCore, hq]
      · simpa using hd.1
      · show 10 * 0 + ((n % 10).digitChar.toNat - 48) = n
        rw [hd.2.1]
        omega
      · intro h0
        have := hd.2.2 (by omega)
        simpa using this
      · intro h0
        subst h0
        rfl
    · obtain ⟨pre, h1, h2, h3, h4, h5, _⟩ := ih (n / 10) ((n % 10).digitChar :: ds) (by omega)
      refine ⟨pre ++ [(n % 10).digitChar], ?_, by simp, ?_, ?_, ?_, ?_⟩
      · simp [Nat.toDigitsCore, hq, h1]
      · rw [List.all_append, h3]
        simpa using hd.1
      · rw [digitsValue_append_single, h4, hd.2.1]
        omega
      · intro _
        have := h5 hq
        cases pre with
        | nil => exact absurd rfl h2
        | cons a t => simpa using this
      · intro h0
        subst h0
        simp at hq

/-- The text `%d` prints for a count is the decimal numeral of the count. -/
theorem decimalValue_fmtInt (n : Nat) : decimalValue (fmtInt n) = some n := by
  obtain ⟨pre, h1, h2, h3, h4, h5, h6⟩ := toDigitsCore_spec (n + 1) n [] (Nat.lt_succ_self n)
  rw [List.append_nil] at h1
  unfold fmtInt Nat.toDigits
  rw [h1, decimalValue, if_pos, h4]
  refine ⟨h2, h3, ?_⟩
  by_cases h0 : n = 0
  · left
    rw [h6 h0]
    rfl
  · right
    exact h5 h0

theorem xssLine_eq (filename t : Str) (n : Nat) :
    xssLine filename t n = xssHead filename t ++ fmtInt n ++ ['\x7d'] := by
  simp [xssLine, xssHead, List.append_assoc]

/-- C2: when the built-in patterns parse, the scan ends with the DOM-XSS
step, and for every trigger string `t` of the fixed list that step publishes
exactly one `xssSource` record for `t` when the lower-cased source contains
`t` and no record for `t` otherwise.  The record is the line
`{"filename": "<url>", "kind": "xssSource", "sourceFound": "<t>", "count": <n>}`
where `<n>` is the decimal numeral of the count `strings.Count` gives; the
count is positive, it is the size of a family of non-overlapping occurrences
of `t` in the lower-cased source, and no such family is larger.  In
particular, with `location.search` counted three times and `location.hash`
not contained, there is exactly one record for `location.search`, the line
ending in `"count": 3}`, and none for `location.hash`. -/
theorem xss_one_record_per_trigger {α β π σ : Type} (d : Deps α β π σ)
    (filename source : Str) (p : π)
    (hparse : d.parseUserPatterns patternsJson = Except.ok p) :
    extractURLsAndSecrets d filename source =
        secretsLoop d.marshalSecret filename (d.getSecrets source p)
          ++ urlsLoop d.marshalURL filename (d.getURLs source) []
          ++ xssLoop d.unicodeToLower filename source domXssStrings
    ∧ (∀ t ∈ domXssStrings,
        (contains (toLower d.unicodeToLower source) t = true →
          (xssLoop d.unicodeToLower filename source domXssStrings).countP
              (isXssRecordFor filename t) = 1
          ∧ Event.output (xssLine filename t (count (toLower d.unicodeToLower source) t)) ∈
              xssLoop d.unicodeToLower filename source domXssStrings
          ∧ 0 < count (toLower d.unicodeToLower source) t
          ∧ (∃ numeral : Str,
              decimalValue numeral = some (count (toLower d.unicodeToLower source) t)
              ∧ Event.output
                  ("\x7b\"filename\": \"".toList ++ filename
                    ++ "\", \"kind\": \"xssSource\", \"sourceFound\": \"".toList ++ t
                    ++ "\", \"count\": ".toList ++ numeral ++ "\x7d".toList) ∈
                xssLoop d.unicodeToLower filename source domXssStrings))
        ∧ (contains (toLower d.unicodeToLower source) t = false →
          (xssLoop d.unicodeToLower filename source domXssStrings).countP
              (isXssRecordFor filename t) = 0)
        ∧ (∃ ps, nonOverlapping (toLower d.unicodeToLower source) t 0 ps = true
            ∧ ps.length = count (toLower d.unicodeToLower source) t)
        ∧ (∀ ps, nonOverlapping (toLower d.unicodeToLower source) t 0 ps = true →
            ps.length ≤ count (toLower d.unicodeToLower source) t))
    ∧ (count (toLower d.unicodeToLower source) "location.search".toList = 3 →
        contains (toLower d.unicodeToLower source) "location.hash".toList = false →
        (xssLoop d.unicodeToLower filename source domXssStrings).countP
            (isXssRecordFor filename "location.search".toList) = 1
        ∧ Event.output
            ("\x7b\"filename\": \"".toList ++ filename
              ++ ("\", \"kind\": \"xssSource\", \"sourceFound\": \"location.search\", "
                ++ "\"count\": 3\x7d").toList) ∈
            xssLoop d.unicodeToLower filename source domXssStrings
        ∧ (xssLoop d.unicodeToLower filename source domXssStrings).countP
            (isXssRecordFor filename "location.hash".toList) = 0)
    ∧ (∀ (t : Str) (n : Nat),
        xssLine filename t n = xssHead filename t ++ fmtInt n ++ ['\x7d']
        ∧ decimalValue (fmtInt n) = some n) := by
  refine ⟨extract_of_parse d filename source p hparse, ?_, ?_,
    fun t n => ⟨xssLine_eq filename t n, decimalValue_fmtInt n⟩⟩
  · intro t ht
    have hne := domXssStrings_ne_nil t ht
    refine ⟨?_, ?_, ?_, ?_⟩
    · intro hc
      refine ⟨?_, xss_mem _ filename source t ht hc, (count_pos_iff _ t hne).2 hc,
        fmtInt (count (toLower d.unicodeToLower source) t), decimalValue_fmtInt _, ?_⟩
      · rw [xss_countP _ filename source t ht, if_pos hc]
      · exact xss_mem _ filename source t ht hc
    · intro hc
      rw [xss_countP _ filename source t ht, hc]
      rfl
    · exact exists_nonOverlapping_count t hne _ _ (Nat.le_refl _)
    · exact nonOverlapping_le_count t hne _ _ (Nat.le_refl _)
  · intro h3 hh
    have hs : "location.search".toList ∈ domXssStrings := by decide
    have hh' : "location.hash".toList ∈ domXssStrings := by decide
    have hc : contains (toLower d.unicodeToLower source) "location.search".toList = true := by
      apply (count_pos_iff _ _ (domXssStrings_ne_nil _ hs)).1
      omega
    refine ⟨?_, ?_, ?_⟩
    · rw [xss_countP _ filename source _ hs, if_pos hc]
    · have := xss_mem d.unicodeToLower filename source _ hs hc
      rw [h3] at this
      have e : xssLine filename "location.search".toList 3 =
          "\x7b\"filename\": \"".toList ++ filename
            ++ ("\", \"kind\": \"xssSource\", \"sourceFound\": \"location.search\", "
              ++ "\"count\": 3\x7d").toList := by
        have e3 : fmtInt 3 = ['3'] := by decide
        simp [xssLine, e3, List.append_assoc]
      rw [e] at this
      exact this
    · rw [xss_countP _ filename source _ hh', hh]
      rfl

/-- The sample document: three `location.search`, no `location.hash`; the
DOM-XSS step publishes the one line with the count 3. -/
theorem xss_one_record_per_trigger_witness :
    sampleDeps.parseUserPatterns patternsJson = Except.ok ()
    ∧ count (toLower sampleDeps.unicodeToLower sampleSource) "location.search".toList = 3
    ∧ contains (toLower sampleDeps.unicodeToLower sampleSource) "location.hash".toList = false
    ∧ (xssLoop sampleDeps.unicodeToLower sampleJob sampleSource domXssStrings).countP
        (isXssRecordFor sampleJob "location.search".toList) = 1
    ∧ Event.output ("\x7b\"filename\": \"http://a\", \"kind\": \"xssSource\", "
          ++ "\"sourceFound\": \"location.search\", \"count\": 3\x7d").toList ∈
        xssLoop sampleDeps.unicodeToLower sampleJob sampleSource domXssStrings
    ∧ (xssLoop sampleDeps.unicodeToLower sampleJob sampleSource domXssStrings).countP
        (isXssRecordFor sampleJob "location.hash".toList) = 0
    ∧ xssLoop sampleDeps.unicodeToLower sampleJob sampleSource domXssStrings =
        [Event.output ("\x7b\"filename\": \"http://a\", \"kind\": \"xssSource\", "
          ++ "\"sourceFound\": \"location.search\", \"count\": 3\x7d").toList] :=
  ⟨rfl, by decide, by decide,
    ((xss_one_record_per_trigger sampleDeps sampleJob sampleSource () rfl).2.2.1
      (by decide) (by decide)).1,
    ((xss_one_record_per_trigger sampleDeps sampleJob sampleSource () rfl).2.2.1
      (by decide) (by decide)).2.1,
    ((xss_one_record_per_trigger sampleDeps sampleJob sampleSource () rfl).2.2.1
      (by decide) (by decide)).2.2,
    by decide⟩

/-! ### The trigger `postMessage` -/

theorem toNat_ofNat_small (n : Nat) (h : n < 0xd800) : (Char.ofNat n).toNat = n := by
  have hv : n.isValidChar := Or.inl h
  rw [Char.ofNat, dif_pos hv]
  simp [Char.ofNatAux, Char.toNat, UInt32.toNat]

/-- Lower-casing never produces the capital letter `M`, unless
`unicode.ToLower` does outside ASCII. -/
theorem toLowerRune_ne_M (uni : Char → Char) (huni : ∀ c : Char, 128 ≤ c.toNat → uni c ≠ 'M')
    (c : Char) : toLowerRune uni c ≠ 'M' := by
  unfold toLowerRune
  split
  · rename_i h1
    split
    · rename_i h2
      intro h
      have h3 := congrArg Char.toNat h
      rw [toNat_ofNat_small _ (by omega)] at h3
      have h4 : 65 ≤ c.toNat := h2.1
      have h5 : ('M' : Char).toNat = 77 := rfl
      omega
    · rename_i h2
      intro h
      subst h
      exact h2 (by decide)
  · rename_i h1
    exact huni c (by omega)

/-- The trigger `postMessage` is never found in a lower-cased text. -/
theorem postMessage_never_contained (uni : Char → Char)
    (huni : ∀ c : Char, 128 ≤ c.toNat → uni c ≠ 'M') (source : Str) :
    contains (toLower uni source) "postMessage".toList = false := by
  cases h : contains (toLower uni source) "postMessage".toList with
  | false => rfl
  | true =>
    exfalso
    have h1 := (contains_iff _ _).1 h
    have h2 : 'M' ∈ toLower uni source := h1.subset (by decide)
    obtain ⟨c, _, hc⟩ := List.mem_map.1 h2
    exact toLowerRune_ne_M uni huni c hc

theorem toLower_postMessage_sample (uni : Char → Char) :
    toLower uni "window.postMessage(".toList = "window.postmessage(".toList := rfl

/-- C4: on the source text `window.postMessage(`, which contains the trigger
`postMessage` as it is written, the DOM-XSS step publishes nothing: the scan
is the error of the pattern parse, or the secret and URL records only.  The
source is lower-cased and the trigger is not, so that, `unicode.ToLower`
never giving a capital `M`, no source at all has a record for `postMessage`. -/
theorem postMessage_not_reported {α β π σ : Type} (d : Deps α β π σ) (filename : Str) :
    contains "window.postMessage(".toList "postMessage".toList = true
    ∧ "postMessage".toList ∈ domXssStrings
    ∧ xssLoop d.unicodeToLower filename "window.postMessage(".toList domXssStrings = []
    ∧ extractURLsAndSecrets d filename "window.postMessage(".toList =
        (match d.parseUserPatterns patternsJson with
        | Except.error err => [Event.errs err]
        | Except.ok p =>
          secretsLoop d.marshalSecret filename (d.getSecrets "window.postMessage(".toList p)
            ++ urlsLoop d.marshalURL filename (d.getURLs "window.postMessage(".toList) [])
    ∧ ((∀ c : Char, 128 ≤ c.toNat → d.unicodeToLower c ≠ 'M') →
        ∀ source : Str,
          contains (toLower d.unicodeToLower source) "postMessage".toList = false
          ∧ (xssLoop d.unicodeToLower filename source domXssStrings).countP
              (isXssRecordFor filename "postMessage".toList) = 0) := by
  have hx : xssLoop d.unicodeToLower filename "window.postMessage(".toList domXssStrings = [] := by
    rw [xssLoop_eq, toLower_postMessage_sample]
    rfl
  refine ⟨by decide, by decide, hx, ?_, ?_⟩
  · unfold extractURLsAndSecrets
    cases d.parseUserPatterns patternsJson with
    | error e => rfl
    | ok p => simp only [hx, List.append_nil]
  · intro huni source
    have hc := postMessage_never_contained d.unicodeToLower huni source
    refine ⟨hc, ?_⟩
    rw [xss_countP _ filename source _ (by decide), hc]
    rfl

/-- The sample collaborators: no source has a record for `postMessage`, also
not one that has the trigger in three casings. -/
theorem postMessage_not_reported_witness :
    (xssLoop sampleDeps.unicodeToLower sampleJob
        "postMessage postmessage POSTMESSAGE".toList domXssStrings).countP
      (isXssRecordFor sampleJob "postMessage".toList) = 0 :=
  ((postMessage_not_reported sampleDeps sampleJob).2.2.2.2
    (fun c hc e => by
      have h : c = 'M' := e
      rw [h] at hc
      exact absurd hc (by decide))
    "postMessage postmessage POSTMESSAGE".toList).2

/-! ### The dispatcher -/

theorem validScheme_iff (url : Str) :
    validScheme url = true ↔ "http://".toList <+: url ∨ "https://".toList <+: url := by
  simp [validScheme, hasPrefix_iff]

theorem scannedLines_cons_short (line : Str) (rest : List Str)
    (h : ¬ maxScanTokenSize ≤ byteLen line) :
    scannedLines (line :: rest) = dropCR line :: scannedLines rest := by
  have hb : decide (byteLen line < maxScanTokenSize) = true := by
    simp only [decide_eq_true_eq]
    omega
  unfold scannedLines
  simp only [List.takeWhile_cons, hb, if_true, List.map_cons]

theorem scannedLines_cons_long (line : Str) (rest : List Str)
    (h : maxScanTokenSize ≤ byteLen line) : scannedLines (line :: rest) = [] := by
  have hb : decide (byteLen line < maxScanTokenSize) = false := by
    simp only [decide_eq_false_iff_not]
    omega
  unfold scannedLines
  simp only [List.takeWhile_cons, hb, Bool.false_eq_true, if_false, List.map_nil]

theorem dispatchLoop_eq (Threads : Int) (hT : 0 < Threads) (lines : List Str) (w : World) :
    dispatchLoop Threads lines w =
      { w with jobs := w.jobs ++ (scannedLines lines).filter validScheme } := by
  induction lines generalizing w with
  | nil => simp [dispatchLoop, scannedLines]
  | cons line rest ih =>
    by_cases hlong : maxScanTokenSize ≤ byteLen line
    · rw [dispatchLoop, if_pos hlong, scannedLines_cons_long line rest hlong]
      simp
    · rw [dispatchLoop, if_neg hlong, scannedLines_cons_short line rest hlong]
      by_cases h : validScheme (dropCR line) = true
      · rw [if_pos h, if_pos hT, ih, List.filter_cons_of_pos h]
        simp
      · rw [if_neg h, ih, List.filter_cons_of_neg h]

theorem scannedLines_of_short (lines : List Str)
    (h : ∀ l ∈ lines, byteLen l < maxScanTokenSize) :
    scannedLines lines = lines.map dropCR := by
  unfold scannedLines
  rw [List.takeWhile_eq_self_iff.2 (fun l hl => decide_eq_true (h l hl))]

theorem scannedLines_of_long (pre : List Str) (long : Str) (post : List Str)
    (hpre : ∀ l ∈ pre, byteLen l < maxScanTokenSize)
    (hlong : maxScanTokenSize ≤ byteLen long) :
    scannedLines (pre ++ long :: post) = pre.map dropCR := by
  induction pre with
  | nil => exact scannedLines_cons_long long post hlong
  | cons l rest ih =>
    have hl := hpre l (List.mem_cons_self _ _)
    rw [List.cons_append, scannedLines_cons_short l _ (by omega),
      ih (fun x hx => hpre x (List.mem_cons_of_mem _ hx)), List.map_cons]

theorem dropCR_of_no_cr (l : Str) (h : '\r' ∉ l) : dropCR l = l := by
  unfold dropCR
  rw [if_neg]
  intro e
  exact h (List.mem_of_getLast?_eq_some e)

theorem byteLen_replicate_x (n : Nat) : byteLen (List.replicate n 'x') = n := by
  induction n with
  | zero => rfl
  | succ n ih =>
    have e : byteLen (List.replicate (n + 1) 'x') = 1 + byteLen (List.replicate n 'x') := by
      simp [byteLen, List.replicate_succ]
      rfl
    rw [e, ih]
    omega

theorem byteLen_longLine : byteLen longLine = 65536 :=
  byteLen_replicate_x 65536

/-- C5, as the claim states it, fails on a long line: for the input
`http://a`, a line of 65536 bytes, `http://b`, the lines that begin with
`http://` or `https://` are `http://a` and `http://b`, and the dispatcher,
with five workers, pushes `http://a` only. -/
theorem dispatch_long_line_counterexample :
    (dispatch 5 longInput World.init).jobs = [sampleJob]
    ∧ longInput.filter validScheme = [sampleJob, "http://b".toList]
    ∧ (dispatch 5 longInput World.init).jobs ≠ longInput.filter validScheme := by
  have h1 : (dispatch 5 longInput World.init).jobs = [sampleJob] := by
    have hl : maxScanTokenSize ≤ byteLen longLine := by
      rw [byteLen_longLine]
      decide
    have hs : ¬ maxScanTokenSize ≤ byteLen sampleJob := by decide
    have hv : validScheme (dropCR sampleJob) = true := by decide
    have e : dispatchLoop 5 longInput World.init =
        { World.init with jobs := World.init.jobs ++ [dropCR sampleJob] } := by
      rw [longInput, dispatchLoop, if_neg hs, if_pos hv, if_pos (by decide), dispatchLoop,
        if_pos hl]
    unfold dispatch
    rw [e]
    rfl
  have h2 : longInput.filter validScheme = [sampleJob, "http://b".toList] := by
    have hx : validScheme longLine = false := by
      show validScheme ('x' :: List.replicate 65535 'x') = false
      rfl
    have ha : validScheme sampleJob = true := by decide
    have hb : validScheme "http://b".toList = true := by decide
    rw [longInput, List.filter_cons_of_pos ha, List.filter_cons_of_neg (by rw [hx]; decide),
      List.filter_cons_of_pos hb, List.filter_nil]
  refine ⟨h1, h2, ?_⟩
  rw [h1, h2]
  decide

/-- C5, amended: with at least one worker started and every input line shorter
than 65536 bytes, the jobs the dispatcher pushes are exactly the lines, taken
without their final carriage return, that begin with `http://` or `https://`,
in input order and with their multiplicity, after the jobs already in the
channel; nothing is written to standard output or standard error; and the
channel is closed at the end.  In general the lines read are those before the
first line of 65536 bytes or more. -/
theorem dispatch_pushes_valid_lines (Threads : Int) (hT : 0 < Threads) (lines : List Str)
    (w : World) (hw : w.blocked = false) :
    dispatch Threads lines w =
        { jobs := w.jobs ++ (scannedLines lines).filter validScheme, jobsClosed := true,
          blocked := false, stdout := w.stdout, stderr := w.stderr }
    ∧ dispatch Threads lines World.init =
        { jobs := (scannedLines lines).filter validScheme, jobsClosed := true,
          blocked := false, stdout := [], stderr := [] }
    ∧ ((∀ l ∈ lines, byteLen l < maxScanTokenSize) → scannedLines lines = lines.map dropCR)
    ∧ ((∀ l ∈ lines, byteLen l < maxScanTokenSize ∧ '\r' ∉ l) →
        dispatch Threads lines World.init =
          { jobs := lines.filter validScheme, jobsClosed := true,
            blocked := false, stdout := [], stderr := [] })
    ∧ (∀ (pre : List Str) (long : Str) (post : List Str), lines = pre ++ long :: post →
        (∀ l ∈ pre, byteLen l < maxScanTokenSize) → maxScanTokenSize ≤ byteLen long →
        scannedLines lines = pre.map dropCR)
    ∧ ((scannedLines lines).filter validScheme).Sublist (scannedLines lines)
    ∧ (∀ url, url ∈ (scannedLines lines).filter validScheme ↔
        url ∈ scannedLines lines ∧ ("http://".toList <+: url ∨ "https://".toList <+: url))
    ∧ (∀ url, "http://".toList <+: url ∨ "https://".toList <+: url →
        ((scannedLines lines).filter validScheme).count url = (scannedLines lines).count url)
    ∧ maxScanTokenSize = 65536
    ∧ ((∀ l ∈ lines, byteLen l < maxScanTokenSize) →
        dispatch Threads lines w =
          { jobs := w.jobs ++ (lines.map dropCR).filter validScheme, jobsClosed := true,
            blocked := false, stdout := w.stdout, stderr := w.stderr }) := by
  have hinit : dispatch Threads lines World.init =
      { jobs := (scannedLines lines).filter validScheme, jobsClosed := true,
        blocked := false, stdout := [], stderr := [] } := by
    simp [dispatch, dispatchLoop_eq Threads hT, World.init]
  have hgen : dispatch Threads lines w =
      { jobs := w.jobs ++ (scannedLines lines).filter validScheme, jobsClosed := true,
        blocked := false, stdout := w.stdout, stderr := w.stderr } := by
    simp [dispatch, dispatchLoop_eq Threads hT, hw]
  refine ⟨hgen, hinit, scannedLines_of_short lines, ?_, ?_, List.filter_sublist _, ?_, ?_, rfl,
    fun h => by rw [hgen, scannedLines_of_short lines h]⟩
  · intro h
    have e : scannedLines lines = lines := by
      rw [scannedLines_of_short lines (fun l hl => (h l hl).1)]
      conv_rhs => rw [← List.map_id lines]
      exact List.map_congr_left (fun l hl => dropCR_of_no_cr l (h l hl).2)
    rw [hinit, e]
  · intro pre long post e hpre hlong
    rw [e, scannedLines_of_long pre long post hpre hlong]
  · intro url
    rw [List.mem_filter, validScheme_iff]
  · intro url h
    rw [List.count_filter ((validScheme_iff url).2 h)]

/-- Sample inputs: three short lines, one of them not a URL and one with a
carriage return; and the input with a line of 65536 bytes. -/
theorem dispatch_pushes_valid_lines_witness :
    dispatch 5 [sampleJob, "ftp://c".toList, "https://b\r".toList] World.init =
        { jobs := [sampleJob, "https://b".toList], jobsClosed := true, blocked := false,
          stdout := [], stderr := [] }
    ∧ dispatch 5 longInput World.init =
        { jobs := [sampleJob], jobsClosed := true, blocked := false,
          stdout := [], stderr := [] } :=
  ⟨((dispatch_pushes_valid_lines 5 (by decide)
        [sampleJob, "ftp://c".toList, "https://b\r".toList] World.init rfl).2.1).trans
      (by decide),
    by
      have h := (dispatch_pushes_valid_lines 5 (by decide) longInput World.init rfl).2.1
      have e := (dispatch_pushes_valid_lines 5 (by decide) longInput World.init rfl).2.2.2.2.1
        [sampleJob] longLine ["http://b".toList] rfl (by decide)
        (by rw [byteLen_longLine]; decide)
      rw [h, e]
      rfl⟩

/-! ### The aggregator -/

theorem aggregate_eq (evs : List Recv) (out err : Str) :
    aggregate evs out err =
      { stdout := out ++ ((evs.takeWhile notDone).map outLine).flatten,
        stderr := err ++ ((evs.takeWhile notDone).map errLine).flatten,
        returned := decide (Recv.done ∈ evs),
        pending := (evs.dropWhile notDone).tail } := by
  induction evs generalizing out err with
  | nil => simp [aggregate]
  | cons e rest ih =>
    cases e with
    | output o =>
      by_cases ho : o = []
      · simp [aggregate, ho, ih, notDone, outLine, errLine]
      · simp [aggregate, ho, ih, notDone, outLine, errLine]
    | errs e => simp [aggregate, ih, notDone, outLine, errLine]
    | done => simp [aggregate, notDone]

/-- C9: the aggregator, run on a sequence of receptions, writes to standard
output the non-empty output strings received before the first done signal,
each followed by a newline and in the order received, and to standard error
`error: ` with the message and a newline for each error received before the
first done signal; it returns exactly when the sequence has a done signal,
at the first one, leaving what follows it unreceived. -/
theorem aggregator_loop (evs : List Recv) :
    aggregate evs [] [] =
        { stdout := ((evs.takeWhile notDone).map outLine).flatten,
          stderr := ((evs.takeWhile notDone).map errLine).flatten,
          returned := decide (Recv.done ∈ evs),
          pending := (evs.dropWhile notDone).tail }
    ∧ (∀ pre post : List Recv, Recv.done ∉ pre →
        evs = pre ++ Recv.done :: post →
        aggregate evs [] [] =
          { stdout := (pre.map outLine).flatten, stderr := (pre.map errLine).flatten,
            returned := true, pending := post })
    ∧ (Recv.done ∉ evs →
        aggregate evs [] [] =
          { stdout := (evs.map outLine).flatten, stderr := (evs.map errLine).flatten,
            returned := false, pending := [] })
    ∧ outLine (Recv.output []) = []
    ∧ (∀ o, o ≠ [] → outLine (Recv.output o) = o ++ ['\n'])
    ∧ (∀ e, errLine (Recv.errs e) = "error: ".toList ++ e ++ ['\n'])
    ∧ (∀ e, outLine (Recv.errs e) = [] ∧ ∀ o, errLine (Recv.output o) = []) := by
  have hnd : ∀ l : List Recv, Recv.done ∉ l → ∀ e ∈ l, notDone e = true := by
    intro l hl e he
    cases e with
    | output o => rfl
    | errs e => rfl
    | done => exact absurd he hl
  refine ⟨by simpa using aggregate_eq evs [] [], ?_, ?_, rfl, ?_, fun _ => rfl,
    fun _ => ⟨rfl, fun _ => rfl⟩⟩
  · intro pre post hpre hevs
    subst hevs
    rw [aggregate_eq]
    have h1 : (pre ++ Recv.done :: post).takeWhile notDone = pre := by
      rw [List.takeWhile_append_of_pos (hnd pre hpre)]
      simp [List.takeWhile, notDone]
    have h2 : (pre ++ Recv.done :: post).dropWhile notDone = Recv.done :: post := by
      rw [List.dropWhile_append_of_pos (hnd pre hpre)]
      simp [List.dropWhile, notDone]
    rw [h1, h2]
    simp
  · intro hevs
    rw [aggregate_eq]
    have h1 : evs.takeWhile notDone = evs := List.takeWhile_eq_self_iff.2 (hnd evs hevs)
    have h2 : evs.dropWhile notDone = [] := List.dropWhile_eq_nil_iff.2 (hnd evs hevs)
    rw [h1, h2]
    simp [hevs]
  · intro o ho
    simp [outLine, ho]

/-- The aggregator on a sample sequence: the empty string prints nothing, the
error does not end the loop, the first done does. -/
theorem aggregator_loop_witness :
    aggregate [Recv.output "a".toList, Recv.output [], Recv.errs "e".toList,
        Recv.output "b".toList, Recv.done, Recv.output "c".toList] [] [] =
      { stdout := "a\nb\n".toList, stderr := "error: e\n".toList, returned := true,
        pending := [Recv.output "c".toList] } :=
  ((aggregator_loop [Recv.output "a".toList, Recv.output [], Recv.errs "e".toList,
        Recv.output "b".toList, Recv.done, Recv.output "c".toList]).2.1
      [Recv.output "a".toList, Recv.output [], Recv.errs "e".toList, Recv.output "b".toList]
      [Recv.output "c".toList] (by decide) rfl).trans (by decide)

/-! ### `split` and the header flags -/

theorem splitLoop_length (sub : Str) (hsub : sub ≠ []) (n : Nat) (s : Str)
    (h : count s sub = n) : (splitLoop sub n s).length = n + 1 := by
  induction n generalizing s with
  | zero => rfl
  | succ n ih =>
    rw [splitLoop]
    cases hi : index s sub with
    | none =>
      rw [count_of_index_none s sub hsub hi] at h
      cases h
    | some m =>
      rw [count_of_index_some s sub hsub m hi] at h
      simp only [List.length_cons]
      rw [ih (s.drop (m + sub.length)) (by omega)]

/-- `strings.Split` returns one piece more than `strings.Count` counts separators. -/
theorem split_length (s sub : Str) (hsub : sub ≠ []) :
    (split s sub).length = count s sub + 1 :=
  splitLoop_length sub hsub (count s sub) s rfl

theorem index_single_cons (a c : Char) (t : Str) :
    index (a :: t) [c] = if a = c then some 0 else (index t [c]).map (· + 1) := by
  rw [index_cons]
  by_cases h : a = c
  · subst h
    simp [hasPrefix]
  · have : ¬ c = a := fun e => h e.symm
    simp [hasPrefix, h, this]

theorem count_single_cons (a c : Char) (t : Str) :
    count (a :: t) [c] = if a = c then 1 + count t [c] else count t [c] := by
  have hne : ([c] : Str) ≠ [] := by simp
  by_cases h : a = c
  · rw [if_pos h, count_of_index_some (a :: t) [c] hne 0 (by rw [index_single_cons, if_pos h])]
    rfl
  · rw [if_neg h]
    cases hi : index t [c] with
    | none =>
      rw [count_of_index_none t [c] hne hi,
        count_of_index_none (a :: t) [c] hne (by rw [index_single_cons, if_neg h, hi]; rfl)]
    | some k =>
      rw [count_of_index_some t [c] hne k hi,
        count_of_index_some (a :: t) [c] hne (k + 1)
          (by rw [index_single_cons, if_neg h, hi]; rfl)]
      rfl

/-- For a one-character substring `strings.Count` counts the occurrences of the character. -/
theorem count_single (c : Char) (s : Str) : count s [c] = s.count c := by
  induction s with
  | nil => rfl
  | cons a t ih =>
    rw [count_single_cons, ih, List.count_cons]
    by_cases h : a = c
    · simp [h]
      omega
    · simp [h]

theorem index_single_take_drop (c : Char) (s : Str) (m : Nat) (h : index s [c] = some m) :
    s.take m = s.takeWhile (fun x => x != c) ∧
      s.drop (m + 1) = (s.dropWhile (fun x => x != c)).tail := by
  induction s generalizing m with
  | nil => simp [index, hasPrefix] at h
  | cons a t ih =>
    rw [index_single_cons] at h
    by_cases hac : a = c
    · rw [if_pos hac] at h
      cases h
      subst hac
      simp [List.takeWhile, List.dropWhile]
    · rw [if_neg hac] at h
      cases hi : index t [c] with
      | none => rw [hi] at h; cases h
      | some k =>
        rw [hi] at h
        simp only [Option.map_some', Option.some.injEq] at h
        subst h
        obtain ⟨h1, h2⟩ := ih k hi
        have hb : (a != c) = true := by simpa using hac
        have e1 : (a :: t).takeWhile (fun x => x != c) = a :: t.takeWhile (fun x => x != c) :=
          List.takeWhile_cons_of_pos hb
        have e2 : (a :: t).dropWhile (fun x => x != c) = t.dropWhile (fun x => x != c) :=
          List.dropWhile_cons_of_pos hb
        rw [e1, e2, ← h1, ← h2]
        exact ⟨rfl, rfl⟩

/-- A header flag with exactly one colon splits into the text before and the text after it. -/
theorem split_colon_of_count_one (header : Str) (h : header.count ':' = 1) :
    split header colon = [headerKey header, headerValue header] := by
  have hne : colon ≠ [] := by simp [colon]
  have hc : count header colon = 1 := by rw [colon, count_single, h]
  unfold split
  rw [hc, splitLoop]
  cases hi : index header colon with
  | none =>
    rw [count_of_index_none header colon hne hi] at hc
    cases hc
  | some m =>
    obtain ⟨h1, h2⟩ := index_single_take_drop ':' header m hi
    show [header.take m, header.drop (m + 1)] = _
    rw [h1, h2]
    rfl

theorem split_colon_length (header : Str) :
    (split header colon).length = header.count ':' + 1 := by
  rw [split_length header colon (by simp [colon]), colon, count_single]

theorem parseHeaders_cons_good (header : Str) (rest : List Str) (m : HeadersMap)
    (h : header.count ':' = 1) :
    parseHeaders (header :: rest) m =
      parseHeaders rest (m.set (headerKey header) (headerValue header)) := by
  rw [parseHeaders, split_colon_of_count_one header h]

theorem parseHeaders_cons_bad (header : Str) (rest : List Str) (m : HeadersMap)
    (h : header.count ':' ≠ 1) :
    parseHeaders (header :: rest) m = Startup.exit 1 (invalidHeaderMsg header) := by
  have hl := split_colon_length header
  rw [parseHeaders]
  split
  · rename_i k v heq
    rw [heq] at hl
    simp only [List.length_cons, List.length_nil] at hl
    omega
  · rfl

theorem parseHeaders_good (Headers : List Str) (m : HeadersMap)
    (h : ∀ x ∈ Headers, x.count ':' = 1) :
    parseHeaders Headers m = Startup.proceed (assignHeaders Headers m) := by
  induction Headers generalizing m with
  | nil => rfl
  | cons x rest ih =>
    rw [parseHeaders_cons_good x rest m (h x (List.mem_cons_self _ _)),
      ih _ (fun y hy => h y (List.mem_cons_of_mem _ hy))]
    rfl

theorem parseHeaders_first_bad (pre : List Str) (bad : Str) (post : List Str) (m : HeadersMap)
    (hpre : ∀ x ∈ pre, x.count ':' = 1) (hbad : bad.count ':' ≠ 1) :
    parseHeaders (pre ++ bad :: post) m = Startup.exit 1 (invalidHeaderMsg bad) := by
  induction pre generalizing m with
  | nil => exact parseHeaders_cons_bad bad post m hbad
  | cons x rest ih =>
    rw [List.cons_append, parseHeaders_cons_good x _ m (hpre x (List.mem_cons_self _ _))]
    exact ih _ (fun y hy => hpre y (List.mem_cons_of_mem _ hy))

theorem exists_first_bad (l : List Str) (h : ¬ ∀ x ∈ l, x.count ':' = 1) :
    ∃ pre bad post, l = pre ++ bad :: post ∧ (∀ x ∈ pre, x.count ':' = 1) ∧
      bad.count ':' ≠ 1 := by
  induction l with
  | nil => exact absurd (fun x hx => absurd hx (List.not_mem_nil x)) h
  | cons a t ih =>
    by_cases ha : a.count ':' = 1
    · have ht : ¬ ∀ x ∈ t, x.count ':' = 1 := by
        intro hall
        apply h
        intro x hx
        rcases List.mem_cons.1 hx with e | e
        · rw [e]; exact ha
        · exact hall x e
      obtain ⟨pre, bad, post, e, hpre, hbad⟩ := ih ht
      refine ⟨a :: pre, bad, post, by rw [e]; rfl, ?_, hbad⟩
      intro x hx
      rcases List.mem_cons.1 hx with e | e
      · rw [e]; exact ha
      · exact hpre x e
    · exact ⟨[], a, t, rfl, fun x hx => absurd hx (List.not_mem_nil x), ha⟩

theorem headerKey_append (k v : Str) (hk : ':' ∉ k) : headerKey (k ++ ':' :: v) = k := by
  induction k with
  | nil => simp [headerKey, List.takeWhile]
  | cons a t ih =>
    have ha : a ≠ ':' := fun e => hk (e ▸ List.mem_cons_self _ _)
    have ht : ':' ∉ t := fun e => hk (List.mem_cons_of_mem _ e)
    have hb : (a != ':') = true := by simpa using ha
    have e1 : headerKey (a :: t ++ ':' :: v) = a :: headerKey (t ++ ':' :: v) :=
      List.takeWhile_cons_of_pos hb
    rw [e1, ih ht]

theorem headerValue_append (k v : Str) (hk : ':' ∉ k) : headerValue (k ++ ':' :: v) = v := by
  induction k with
  | nil => simp [headerValue, List.dropWhile]
  | cons a t ih =>
    have ha : a ≠ ':' := fun e => hk (e ▸ List.mem_cons_self _ _)
    have ht : ':' ∉ t := fun e => hk (List.mem_cons_of_mem _ e)
    have hb : (a != ':') = true := by simpa using ha
    have e1 : headerValue (a :: t ++ ':' :: v) = headerValue (t ++ ':' :: v) :=
      congrArg List.tail (List.dropWhile_cons_of_pos hb)
    rw [e1, ih ht]

theorem count_colon_append (k v : Str) (hk : ':' ∉ k) (hv : ':' ∉ v) :
    (k ++ ':' :: v).count ':' = 1 := by
  rw [List.count_append, List.count_cons_self, List.count_eq_zero_of_not_mem hk,
    List.count_eq_zero_of_not_mem hv]

theorem assignHeaders_other (post : List Str) (m : HeadersMap) (k : Str)
    (h : ∀ x ∈ post, headerKey x ≠ k) : assignHeaders post m k = m k := by
  induction post generalizing m with
  | nil => rfl
  | cons a t ih =>
    have e : assignHeaders (a :: t) m = assignHeaders t (m.set (headerKey a) (headerValue a)) :=
      rfl
    rw [e, ih _ (fun x hx => h x (List.mem_cons_of_mem _ hx))]
    have ha : k ≠ headerKey a := fun e => h a (List.mem_cons_self _ _) e.symm
    simp [HeadersMap.set, ha]

theorem assignHeaders_last (pre : List Str) (e : Str) (post : List Str) (m : HeadersMap)
    (h : ∀ x ∈ post, headerKey x ≠ headerKey e) :
    assignHeaders (pre ++ e :: post) m (headerKey e) = some (headerValue e) := by
  have e1 : assignHeaders (pre ++ e :: post) m =
      assignHeaders post ((assignHeaders pre m).set (headerKey e) (headerValue e)) := by
    simp [assignHeaders, List.foldl_append]
  rw [e1, assignHeaders_other post _ _ h]
  simp [HeadersMap.set]

/-- C8: `main` gets past header validation, to the dispatcher, exactly when
every `--header` entry has exactly one colon; then the headers map is the
result of assigning, in order, the text before the colon of each entry to the
text after it (so an entry `K:V` whose key no later entry repeats maps `K` to
`V`); otherwise `main` leaves through `os.Exit(1)` at the first entry without
exactly one colon, with the diagnostic for that entry, and no job is pushed. -/
theorem header_validation (Threads : Int) (Headers lines : List Str) :
    ((∃ m w, mainUntilClose Threads Headers lines = Run.dispatched m w) ↔
        ∀ h ∈ Headers, h.count ':' = 1)
    ∧ ((∀ h ∈ Headers, h.count ':' = 1) →
        mainUntilClose Threads Headers lines =
          Run.dispatched (assignHeaders Headers emptyHeaders) (dispatch Threads lines World.init))
    ∧ ((¬ ∀ h ∈ Headers, h.count ':' = 1) →
        ∃ pre bad post, Headers = pre ++ bad :: post ∧ (∀ h ∈ pre, h.count ':' = 1) ∧
          bad.count ':' ≠ 1 ∧
          mainUntilClose Threads Headers lines = Run.exited 1 (invalidHeaderMsg bad))
    ∧ (∀ (pre : List Str) (bad : Str) (post : List Str), Headers = pre ++ bad :: post →
        (∀ h ∈ pre, h.count ':' = 1) → bad.count ':' ≠ 1 →
        mainUntilClose Threads Headers lines = Run.exited 1 (invalidHeaderMsg bad))
    ∧ (∀ k v : Str, ':' ∉ k → ':' ∉ v →
        split (k ++ ':' :: v) colon = [k, v])
    ∧ (∀ (pre : List Str) (k v : Str) (post : List Str),
        Headers = pre ++ (k ++ ':' :: v) :: post → ':' ∉ k →
        (∀ h ∈ post, headerKey h ≠ k) →
        assignHeaders Headers emptyHeaders k = some v) := by
  have hgood : (∀ h ∈ Headers, h.count ':' = 1) →
      mainUntilClose Threads Headers lines =
        Run.dispatched (assignHeaders Headers emptyHeaders) (dispatch Threads lines World.init) := by
    intro h
    unfold mainUntilClose
    rw [parseHeaders_good Headers emptyHeaders h]
  have hbad : (¬ ∀ h ∈ Headers, h.count ':' = 1) →
      ∃ pre bad post, Headers = pre ++ bad :: post ∧ (∀ h ∈ pre, h.count ':' = 1) ∧
        bad.count ':' ≠ 1 ∧
        mainUntilClose Threads Headers lines = Run.exited 1 (invalidHeaderMsg bad) := by
    intro h
    obtain ⟨pre, bad, post, e, hpre, hb⟩ := exists_first_bad Headers h
    refine ⟨pre, bad, post, e, hpre, hb, ?_⟩
    unfold mainUntilClose
    rw [e, parseHeaders_first_bad pre bad post emptyHeaders hpre hb]
  refine ⟨⟨?_, fun h => ⟨_, _, hgood h⟩⟩, hgood, hbad, ?_, ?_, ?_⟩
  · rintro ⟨m, w, hm⟩
    by_contra h
    obtain ⟨_, bad, _, _, _, _, hex⟩ := hbad h
    rw [hex] at hm
    cases hm
  · intro pre bad post e hpre hb
    unfold mainUntilClose
    rw [e, parseHeaders_first_bad pre bad post emptyHeaders hpre hb]
  · intro k v hk hv
    rw [split_colon_of_count_one _ (count_colon_append k v hk hv), headerKey_append k v hk,
      headerValue_append k v hk]
  · intro pre k v post e hk hpost
    have h1 := assignHeaders_last pre (k ++ ':' :: v) post emptyHeaders
      (by rw [headerKey_append k v hk]; exact hpost)
    rw [headerKey_append k v hk, headerValue_append k v hk] at h1
    rw [e]
    exact h1

/-- Sample header lists: `X-Foo` has no colon and stops `main`; `K:V` is accepted. -/
theorem header_validation_witness :
    mainUntilClose 5 ["A:1".toList, "X-Foo".toList, "B:2".toList] [sampleJob] =
        Run.exited 1 "invalid header: X-Foo\n".toList
    ∧ mainUntilClose 5 ["K:V".toList] [sampleJob] =
        Run.dispatched (assignHeaders ["K:V".toList] emptyHeaders)
          { jobs := [sampleJob], jobsClosed := true, blocked := false, stdout := [], stderr := [] }
    ∧ assignHeaders ["K:V".toList] emptyHeaders "K".toList = some "V".toList :=
  ⟨(header_validation 5 ["A:1".toList, "X-Foo".toList, "B:2".toList] [sampleJob]).2.2.2.1
      ["A:1".toList] "X-Foo".toList ["B:2".toList] rfl (by decide) (by decide),
    (header_validation 5 ["K:V".toList] [sampleJob]).2.1 (by decide),
    (header_validation 5 ["K:V".toList] [sampleJob]).2.2.2.2.2 [] "K".toList "V".toList [] rfl
      (by decide) (by decide)⟩

/-! ### The loops over the secret matches and the URL matches -/

theorem secretsLoop_cons {α : Type} (marshal : Secret α → Except GoError Str) (filename : Str)
    (m : Secret α) (rest : List (Secret α)) :
    secretsLoop marshal filename (m :: rest) =
      publishSecret marshal filename m ++ secretsLoop marshal filename rest := by
  rw [secretsLoop, publishSecret]
  cases marshal { m with Filename := filename } with
  | error e => rfl
  | ok j => rfl

theorem secretsLoop_append {α : Type} (marshal : Secret α → Except GoError Str)
    (filename : Str) (pre post : List (Secret α)) :
    secretsLoop marshal filename (pre ++ post) =
      secretsLoop marshal filename pre ++ secretsLoop marshal filename post := by
  induction pre with
  | nil => rfl
  | cons m rest ih =>
    rw [List.cons_append, secretsLoop_cons, secretsLoop_cons, ih, List.append_assoc]

theorem urlsLoop_cons_seen {β : Type} (marshal : URLMatch β → Except GoError Str)
    (filename : Str) (m : URLMatch β) (rest : List (URLMatch β)) (seen : List Str)
    (h : m.URL ∈ seen) :
    urlsLoop marshal filename (m :: rest) seen = urlsLoop marshal filename rest seen := by
  rw [urlsLoop, if_pos h]

theorem urlsLoop_cons_new {β : Type} (marshal : URLMatch β → Except GoError Str)
    (filename : Str) (m : URLMatch β) (rest : List (URLMatch β)) (seen : List Str)
    (h : m.URL ∉ seen) :
    urlsLoop marshal filename (m :: rest) seen =
      publishURL marshal filename m :: urlsLoop marshal filename rest (m.URL :: seen) := by
  rw [urlsLoop, if_neg h, publishURL]
  cases marshal { m with Filename := filename } with
  | error e => rfl
  | ok j => rfl

theorem urlsLoop_append {β : Type} (marshal : URLMatch β → Except GoError Str)
    (filename : Str) (pre post : List (URLMatch β)) (seen : List Str) :
    urlsLoop marshal filename (pre ++ post) seen =
      urlsLoop marshal filename pre seen
        ++ urlsLoop marshal filename post (seenAfter pre seen) := by
  induction pre generalizing seen with
  | nil => rfl
  | cons m rest ih =>
    by_cases h : m.URL ∈ seen
    · rw [List.cons_append, urlsLoop_cons_seen _ _ _ _ _ h, urlsLoop_cons_seen _ _ _ _ _ h,
        ih, seenAfter, if_pos h]
    · rw [List.cons_append, urlsLoop_cons_new _ _ _ _ _ h, urlsLoop_cons_new _ _ _ _ _ h,
        ih, seenAfter, if_neg h, List.cons_append]

theorem mem_seenAfter {β : Type} (ms : List (URLMatch β)) (seen : List Str) (u : Str) :
    u ∈ seenAfter ms seen ↔ u ∈ seen ∨ u ∈ ms.map URLMatch.URL := by
  induction ms generalizing seen with
  | nil => simp [seenAfter]
  | cons m rest ih =>
    by_cases h : m.URL ∈ seen
    · rw [seenAfter, if_pos h, ih, List.map_cons, List.mem_cons]
      constructor
      · rintro (h1 | h1)
        · exact Or.inl h1
        · exact Or.inr (Or.inr h1)
      · rintro (h1 | h1 | h1)
        · exact Or.inl h1
        · exact Or.inl (h1 ▸ h)
        · exact Or.inr h1
    · rw [seenAfter, if_neg h, ih, List.map_cons, List.mem_cons, List.mem_cons]
      constructor
      · rintro ((h1 | h1) | h1)
        · exact Or.inr (Or.inl h1)
        · exact Or.inl h1
        · exact Or.inr (Or.inr h1)
      · rintro (h1 | h1 | h1)
        · exact Or.inl (Or.inr h1)
        · exact Or.inl (Or.inl h1)
        · exact Or.inr h1

theorem urlsLoop_eq_map {β : Type} (marshal : URLMatch β → Except GoError Str)
    (filename : Str) (ms : List (URLMatch β)) (seen : List Str) :
    urlsLoop marshal filename ms seen =
      (keptURLs ms seen).map (publishURL marshal filename) := by
  induction ms generalizing seen with
  | nil => rfl
  | cons m rest ih =>
    by_cases h : m.URL ∈ seen
    · rw [urlsLoop_cons_seen _ _ _ _ _ h, keptURLs, if_pos h, ih]
    · rw [urlsLoop_cons_new _ _ _ _ _ h, keptURLs, if_neg h, ih, List.map_cons]

theorem keptURLs_sublist {β : Type} (ms : List (URLMatch β)) (seen : List Str) :
    (keptURLs ms seen).Sublist ms := by
  induction ms generalizing seen with
  | nil => exact List.Sublist.slnil
  | cons m rest ih =>
    by_cases h : m.URL ∈ seen
    · rw [keptURLs, if_pos h]
      exact (ih seen).cons m
    · rw [keptURLs, if_neg h]
      exact (ih _).cons₂ m

theorem filter_url_cons_eq {β : Type} (m : URLMatch β) (l : List (URLMatch β)) (u : Str)
    (h : m.URL = u) :
    (m :: l).filter (fun x => x.URL == u) = m :: l.filter (fun x => x.URL == u) := by
  simp [List.filter_cons, h]

theorem filter_url_cons_ne {β : Type} (m : URLMatch β) (l : List (URLMatch β)) (u : Str)
    (h : m.URL ≠ u) :
    (m :: l).filter (fun x => x.URL == u) = l.filter (fun x => x.URL == u) := by
  simp [List.filter_cons, h]

theorem find_url_cons_eq {β : Type} (m : URLMatch β) (l : List (URLMatch β)) (u : Str)
    (h : m.URL = u) : (m :: l).find? (fun x => x.URL == u) = some m := by
  simp [List.find?_cons, h]

theorem find_url_cons_ne {β : Type} (m : URLMatch β) (l : List (URLMatch β)) (u : Str)
    (h : m.URL ≠ u) :
    (m :: l).find? (fun x => x.URL == u) = l.find? (fun x => x.URL == u) := by
  simp [List.find?_cons, h]

theorem keptURLs_filter_seen {β : Type} (ms : List (URLMatch β)) (seen : List Str) (u : Str)
    (hu : u ∈ seen) : (keptURLs ms seen).filter (fun x => x.URL == u) = [] := by
  induction ms generalizing seen with
  | nil => rfl
  | cons m rest ih =>
    by_cases h : m.URL ∈ seen
    · rw [keptURLs, if_pos h]
      exact ih seen hu
    · have hne : m.URL ≠ u := fun e => h (e ▸ hu)
      rw [keptURLs, if_neg h, filter_url_cons_ne m _ u hne]
      exact ih _ (List.mem_cons_of_mem _ hu)

/-- Of the matches with a URL not seen before the loop, the loop keeps the first one only. -/
theorem keptURLs_filter_new {β : Type} (ms : List (URLMatch β)) (seen : List Str) (u : Str)
    (hu : u ∉ seen) :
    (keptURLs ms seen).filter (fun x => x.URL == u) =
      (ms.find? (fun x => x.URL == u)).toList := by
  induction ms generalizing seen with
  | nil => rfl
  | cons m rest ih =>
    by_cases e : m.URL = u
    · have h : m.URL ∉ seen := e ▸ hu
      rw [keptURLs, if_neg h, filter_url_cons_eq m _ u e, find_url_cons_eq m _ u e,
        keptURLs_filter_seen rest _ u (e ▸ List.mem_cons_self _ _)]
      rfl
    · rw [find_url_cons_ne m _ u e]
      by_cases h : m.URL ∈ seen
      · rw [keptURLs, if_pos h]
        exact ih seen hu
      · rw [keptURLs, if_neg h, filter_url_cons_ne m _ u e]
        apply ih
        intro hm
        rcases List.mem_cons.1 hm with h1 | h1
        · exact e h1.symm
        · exact hu h1

/-- C1: when the built-in patterns parse, the URL step of a scan sends one
event for each match the loop keeps, in matcher order; for a URL value `u`
whose first match in matcher order is `m`, the kept matches with URL `u` are
`m` alone, every later one being skipped; and when the JSON encoding of `m`
tagged with the document succeeds, that encoding is on `output`.  The scan
starts from an empty set of seen URLs, whatever was scanned before. -/
theorem url_dedup_per_document {α β π σ : Type} (d : Deps α β π σ) (filename source : Str)
    (p : π) (u : Str) (m : URLMatch β) (j : Str)
    (hparse : d.parseUserPatterns patternsJson = Except.ok p)
    (hfirst : (d.getURLs source).find? (fun x => x.URL == u) = some m)
    (hjson : d.marshalURL { m with Filename := filename } = Except.ok j) :
    extractURLsAndSecrets d filename source =
        secretsLoop d.marshalSecret filename (d.getSecrets source p)
          ++ urlsLoop d.marshalURL filename (d.getURLs source) []
          ++ xssLoop d.unicodeToLower filename source domXssStrings
    ∧ urlsLoop d.marshalURL filename (d.getURLs source) [] =
        (keptURLs (d.getURLs source) []).map (publishURL d.marshalURL filename)
    ∧ (keptURLs (d.getURLs source) []).Sublist (d.getURLs source)
    ∧ (keptURLs (d.getURLs source) []).filter (fun x => x.URL == u) = [m]
    ∧ m ∈ d.getURLs source ∧ m.URL = u
    ∧ publishURL d.marshalURL filename m = Event.output j
    ∧ Event.output j ∈ extractURLsAndSecrets d filename source
    ∧ (∀ v ∈ (d.getURLs source).map URLMatch.URL,
        ∃ x, (d.getURLs source).find? (fun y => y.URL == v) = some x) := by
  have hk : (keptURLs (d.getURLs source) []).filter (fun x => x.URL == u) = [m] := by
    rw [keptURLs_filter_new _ [] u (List.not_mem_nil u), hfirst]
    rfl
  have hp : publishURL d.marshalURL filename m = Event.output j := by
    rw [publishURL, hjson]
  have hmem : m ∈ keptURLs (d.getURLs source) [] := by
    have : m ∈ (keptURLs (d.getURLs source) []).filter (fun x => x.URL == u) := by
      rw [hk]
      exact List.mem_singleton_self m
    exact (List.mem_filter.1 this).1
  refine ⟨extract_of_parse d filename source p hparse, urlsLoop_eq_map _ _ _ _,
    keptURLs_sublist _ _, hk, List.mem_of_find?_eq_some hfirst, ?_, hp, ?_, ?_⟩
  · have := List.find?_some hfirst
    exact beq_iff_eq.1 this
  · rw [extract_of_parse d filename source p hparse, urlsLoop_eq_map]
    apply List.mem_append_left
    apply List.mem_append_right
    exact List.mem_map.2 ⟨m, hmem, hp⟩
  · intro v hv
    obtain ⟨x, hx, hxv⟩ := List.mem_map.1 hv
    cases hf : (d.getURLs source).find? (fun y => y.URL == v) with
    | some y => exact ⟨y, rfl⟩
    | none =>
      have := List.find?_eq_none.1 hf x hx
      exact absurd (beq_iff_eq.2 hxv) this

/-- Two sample documents with the same URL matches: `/a` occurs twice and
each scan has one record for it, tagged with its own document. -/
theorem url_dedup_per_document_witness :
    (extractURLsAndSecrets sampleDeps sampleJob sampleSource).count
        (Event.output "/a@http://a".toList) = 1
    ∧ Event.output "/a@http://a".toList ∈
        extractURLsAndSecrets sampleDeps sampleJob sampleSource
    ∧ Event.output "/a@http://b".toList ∈
        extractURLsAndSecrets sampleDeps "http://b".toList sampleSource :=
  ⟨by decide,
    (url_dedup_per_document sampleDeps sampleJob sampleSource () "/a".toList
      ⟨"/a".toList, [], true⟩ "/a@http://a".toList rfl rfl rfl).2.2.2.2.2.2.2.1,
    (url_dedup_per_document sampleDeps "http://b".toList sampleSource () "/a".toList
      ⟨"/a".toList, [], true⟩ "/a@http://b".toList rfl rfl rfl).2.2.2.2.2.2.2.1⟩

/-- C7: when the built-in patterns parse, the scan is the loop over the
secret matches, then the loop over the URL matches, then the DOM-XSS step; a
secret match whose JSON encoding fails adds nothing, neither a record nor an
error, and the loop goes on with the matches after it; a URL match, not seen
before, whose JSON encoding fails adds the encoding error on `errs` and no
record, and the loop goes on with the matches after it, the URL being
recorded as seen. -/
theorem serialization_failures_skip {α β π σ : Type} (d : Deps α β π σ)
    (filename source : Str) (p : π)
    (hparse : d.parseUserPatterns patternsJson = Except.ok p) :
    extractURLsAndSecrets d filename source =
        secretsLoop d.marshalSecret filename (d.getSecrets source p)
          ++ urlsLoop d.marshalURL filename (d.getURLs source) []
          ++ xssLoop d.unicodeToLower filename source domXssStrings
    ∧ (∀ (pre : List (Secret α)) (m : Secret α) (post : List (Secret α)) (e : GoError),
        d.getSecrets source p = pre ++ m :: post →
        d.marshalSecret { m with Filename := filename } = Except.error e →
        secretsLoop d.marshalSecret filename (d.getSecrets source p) =
          secretsLoop d.marshalSecret filename pre
            ++ secretsLoop d.marshalSecret filename post)
    ∧ (∀ (pre : List (URLMatch β)) (m : URLMatch β) (post : List (URLMatch β)) (e : GoError),
        d.getURLs source = pre ++ m :: post →
        m.URL ∉ pre.map URLMatch.URL →
        d.marshalURL { m with Filename := filename } = Except.error e →
        urlsLoop d.marshalURL filename (d.getURLs source) [] =
            urlsLoop d.marshalURL filename pre []
              ++ Event.errs e
                :: urlsLoop d.marshalURL filename post (m.URL :: seenAfter pre [])
        ∧ ∀ v, v ∈ m.URL :: seenAfter pre [] ↔ v = m.URL ∨ v ∈ pre.map URLMatch.URL) := by
  refine ⟨extract_of_parse d filename source p hparse, ?_, ?_⟩
  · intro pre m post e hs hm
    rw [hs, secretsLoop_append, secretsLoop_cons, publishSecret, hm]
    rfl
  · intro pre m post e hs hnew hm
    have hns : m.URL ∉ seenAfter pre [] := by
      rw [mem_seenAfter]
      rintro (h | h)
      · exact absurd h (List.not_mem_nil _)
      · exact hnew h
    refine ⟨?_, ?_⟩
    · rw [hs, urlsLoop_append, urlsLoop_cons_new _ _ _ _ _ hns, publishURL, hm]
    · intro v
      rw [List.mem_cons, mem_seenAfter]
      constructor
      · rintro (h | h | h)
        · exact Or.inl h
        · exact absurd h (List.not_mem_nil _)
        · exact Or.inr h
      · rintro (h | h)
        · exact Or.inl h
        · exact Or.inr (Or.inr h)

/-- The sample document: the second secret and the first `/c` do not encode;
the scan goes on after each of them. -/
theorem serialization_failures_skip_witness :
    extractURLsAndSecrets sampleDeps sampleJob sampleSource =
        [Event.output "secret@http://a".toList, Event.output "secret@http://a".toList,
         Event.output "/a@http://a".toList, Event.output "/b@http://a".toList,
         Event.errs "unsupported".toList,
         Event.output (xssLine sampleJob "location.search".toList 3)]
    ∧ secretsLoop sampleDeps.marshalSecret sampleJob (sampleDeps.getSecrets sampleSource ()) =
        secretsLoop sampleDeps.marshalSecret sampleJob [⟨[], true⟩]
          ++ secretsLoop sampleDeps.marshalSecret sampleJob [⟨[], true⟩]
    ∧ urlsLoop sampleDeps.marshalURL sampleJob (sampleDeps.getURLs sampleSource) [] =
        urlsLoop sampleDeps.marshalURL sampleJob
            [⟨"/a".toList, [], true⟩, ⟨"/b".toList, [], true⟩, ⟨"/a".toList, [], true⟩] []
          ++ Event.errs "unsupported".toList
            :: urlsLoop sampleDeps.marshalURL sampleJob [⟨"/c".toList, [], true⟩]
                ("/c".toList :: seenAfter
                  [(⟨"/a".toList, [], true⟩ : URLMatch Bool), ⟨"/b".toList, [], true⟩,
                    ⟨"/a".toList, [], true⟩] []) :=
  ⟨(serialization_failures_skip sampleDeps sampleJob sampleSource () rfl).1.trans rfl,
    (serialization_failures_skip sampleDeps sampleJob sampleSource () rfl).2.1
      [⟨[], true⟩] ⟨[], false⟩ [⟨[], true⟩] "unsupported".toList rfl rfl,
    ((serialization_failures_skip sampleDeps sampleJob sampleSource () rfl).2.2
      [⟨"/a".toList, [], true⟩, ⟨"/b".toList, [], true⟩, ⟨"/a".toList, [], true⟩]
      ⟨"/c".toList, [], false⟩ [⟨"/c".toList, [], true⟩] "unsupported".toList rfl
      (by decide) rfl).1⟩

/-! ### A worker -/

theorem workerLoop_cons_error {α β π σ : Type} (d : Deps α β π σ) (headers : HeadersMap)
    (url : Str) (rest : List Str) (client client' : σ) (err : GoError)
    (h : getSource d url client headers = (Except.error err, client')) :
    workerLoop d headers (url :: rest) client =
      Act.getSource url :: Act.send (Event.errs err) :: workerLoop d headers rest client' := by
  rw [workerLoop, h]

theorem workerLoop_cons_ok {α β π σ : Type} (d : Deps α β π σ) (headers : HeadersMap)
    (url : Str) (rest : List Str) (client client' : σ) (source : Str)
    (h : getSource d url client headers = (Except.ok source, client')) :
    workerLoop d headers (url :: rest) client =
      Act.getSource url :: (extractURLsAndSecrets d url source).map Act.send
        ++ workerLoop d headers rest client' := by
  rw [workerLoop, h]

theorem workerLoop_append {α β π σ : Type} (d : Deps α β π σ) (headers : HeadersMap)
    (pre post : List Str) (client : σ) :
    workerLoop d headers (pre ++ post) client =
      workerLoop d headers pre client
        ++ workerLoop d headers post (clientAfter d headers pre client) := by
  induction pre generalizing client with
  | nil => rfl
  | cons url rest ih =>
    rcases h : getSource d url client headers with ⟨r, client'⟩
    have hc : clientAfter d headers (url :: rest) client = clientAfter d headers rest client' := by
      rw [clientAfter, h]
    cases r with
    | error err =>
      rw [List.cons_append, workerLoop_cons_error d headers url _ client client' err h,
        workerLoop_cons_error d headers url _ client client' err h, ih, hc]
      rfl
    | ok source =>
      rw [List.cons_append, workerLoop_cons_ok d headers url _ client client' source h,
        workerLoop_cons_ok d headers url _ client client' source h, ih, hc]
      simp only [List.cons_append, List.append_assoc]

/-- A worker calls `getSource` once on each job it receives, in order. -/
theorem workerLoop_fetches {α β π σ : Type} (d : Deps α β π σ) (headers : HeadersMap)
    (jobs : List Str) (client : σ) :
    (workerLoop d headers jobs client).filterMap fetchedURL = jobs := by
  induction jobs generalizing client with
  | nil => rfl
  | cons url rest ih =>
    rcases h : getSource d url client headers with ⟨r, client'⟩
    cases r with
    | error err =>
      rw [workerLoop_cons_error d headers url _ client client' err h]
      simp [fetchedURL, ih]
    | ok source =>
      rw [workerLoop_cons_ok d headers url _ client client' source h]
      have hz : ((extractURLsAndSecrets d url source).map Act.send).filterMap fetchedURL = [] := by
        rw [List.filterMap_map]
        exact List.filterMap_eq_nil_iff.2 (fun _ _ => rfl)
      rw [List.cons_append, List.filterMap_cons, List.filterMap_append, hz, ih]
      rfl

/-- C6: in a worker's loop, when `getSource` fails for a job `A`, the worker
sends the error on `errs`, nothing on `output`, does not scan `A`, and goes
on: what follows is the loop over the jobs after `A`, with the client as the
failed call left it; every job is fetched once, in order; and a job `B` after
`A` whose fetch succeeds is followed by the sends of its scan. -/
theorem fetch_failure_skips_job {α β π σ : Type} (d : Deps α β π σ) (headers : HeadersMap)
    (pre : List Str) (A : Str) (post : List Str) (client client' : σ) (err : GoError)
    (hfail : getSource d A (clientAfter d headers pre client) headers
      = (Except.error err, client')) :
    workerLoop d headers (pre ++ A :: post) client =
        workerLoop d headers pre client
          ++ Act.getSource A :: Act.send (Event.errs err) :: workerLoop d headers post client'
    ∧ (workerLoop d headers (pre ++ A :: post) client).filterMap fetchedURL = pre ++ A :: post
    ∧ (workerLoop d headers post client').filterMap fetchedURL = post
    ∧ (∀ (mid : List Str) (B : Str) (tail : List Str) (source : Str) (client'' : σ),
        post = mid ++ B :: tail →
        getSource d B (clientAfter d headers mid client') headers
          = (Except.ok source, client'') →
        workerLoop d headers post client' =
          workerLoop d headers mid client'
            ++ Act.getSource B :: (extractURLsAndSecrets d B source).map Act.send
            ++ workerLoop d headers tail client'') := by
  refine ⟨?_, workerLoop_fetches _ _ _ _, workerLoop_fetches _ _ _ _, ?_⟩
  · rw [workerLoop_append, workerLoop_cons_error d headers A post _ client' err hfail]
  · intro mid B tail source client'' hpost hok
    rw [hpost, workerLoop_append, workerLoop_cons_ok d headers B tail _ client'' source hok]
    simp only [List.cons_append, List.append_assoc]

/-- Sample jobs: the fetch of `http://down` fails, the job after it is fetched and scanned. -/
theorem fetch_failure_skips_job_witness :
    workerLoop sampleDeps emptyHeaders [sampleJob, "http://down".toList, "http://b".toList] 0 =
        workerLoop sampleDeps emptyHeaders [sampleJob] 0
          ++ Act.getSource "http://down".toList :: Act.send (Event.errs "refused".toList)
            :: workerLoop sampleDeps emptyHeaders ["http://b".toList] 2
    ∧ workerLoop sampleDeps emptyHeaders ["http://b".toList] 2 =
        Act.getSource "http://b".toList
          :: (extractURLsAndSecrets sampleDeps "http://b".toList
              "var u = location.hash".toList).map Act.send :=
  ⟨(fetch_failure_skips_job sampleDeps emptyHeaders [sampleJob] "http://down".toList
      ["http://b".toList] 0 2 "refused".toList rfl).1,
    ((fetch_failure_skips_job sampleDeps emptyHeaders [sampleJob] "http://down".toList
      ["http://b".toList] 0 2 "refused".toList rfl).2.2.2 [] "http://b".toList []
      "var u = location.hash".toList 3 rfl rfl).trans (by simp [workerLoop])⟩

/-! ### The lines of the DOM-XSS step as JSON -/

theorem toLower_hashSource (uni : Char → Char) :
    toLower uni "location.hash".toList = "location.hash".toList := rfl

theorem jsonRun_append (s : JState) (a b : Str) :
    jsonRun s (a ++ b) = (jsonRun s a).bind (fun s' => jsonRun s' b) := by
  induction a generalizing s with
  | nil => rfl
  | cons c r ih =>
    rw [List.cons_append, jsonRun, jsonRun]
    cases jsonStep s c with
    | none => rfl
    | some s' => exact ih s'

theorem startValue_litOk (st : List JCtx) (c : Char) (s' : JState)
    (h : startValue st c = some s') : litOk s'.mode = true := by
  unfold startValue at h
  split_ifs at h <;> first | (cases h; rfl)

theorem afterValue_litOk (st : List JCtx) (c : Char) (s' : JState)
    (h : afterValue st c = some s') : litOk s'.mode = true := by
  unfold afterValue at h
  split at h
  · cases h; rfl
  · split at h
    · cases h
    · split_ifs at h <;> first | (cases h; rfl)
    · split_ifs at h <;> first | (cases h; rfl)

theorem stepNum_litOk (st : List JCtx) (n : Nat) (c : Char) (s' : JState)
    (h : stepNum st n c = some s') : litOk s'.mode = true := by
  unfold stepNum at h
  split_ifs at h <;>
    first | (cases h; rfl) | (exact afterValue_litOk st c s' h)

theorem stepStr_litOk (st : List JCtx) (k : Bool) (n : Nat) (c : Char) (s' : JState)
    (h : stepStr st k n c = some s') : litOk s'.mode = true := by
  unfold stepStr at h
  split at h <;> split_ifs at h <;> first | (cases h; rfl)

theorem litOk_tail (x : Char) (r : Str) (h : litOk (JMode.lit (x :: r)) = true) :
    litOk (JMode.lit r) = true ∧ x ≠ '"' := by
  simp only [litOk, List.contains_cons, Bool.not_eq_true', Bool.or_eq_false_iff] at h ⊢
  refine ⟨h.2, ?_⟩
  intro e
  subst e
  simp at h

theorem jsonStep_litOk (s : JState) (c : Char) (s' : JState) (hs : litOk s.mode = true)
    (h : jsonStep s c = some s') : litOk s'.mode = true := by
  rcases s with ⟨st, mode⟩
  cases mode with
  | value =>
    simp only [jsonStep] at h
    split_ifs at h
    · cases h; rfl
    · exact startValue_litOk st c s' h
  | valueOrEnd =>
    simp only [jsonStep] at h
    split_ifs at h
    · cases h; rfl
    · cases h; rfl
    · exact startValue_litOk st c s' h
  | keyOrEnd =>
    simp only [jsonStep] at h
    split_ifs at h <;> (cases h; rfl)
  | key =>
    simp only [jsonStep] at h
    split_ifs at h <;> (cases h; rfl)
  | colon =>
    simp only [jsonStep] at h
    split_ifs at h <;> (cases h; rfl)
  | after => exact afterValue_litOk st c s' h
  | str k n => exact stepStr_litOk st k n c s' h
  | lit r =>
    cases r with
    | nil => simp only [jsonStep] at h; cases h
    | cons x r =>
      simp only [jsonStep] at h
      split_ifs at h
      · cases h; rfl
      · cases h; exact (litOk_tail x r hs).1
  | num n => exact stepNum_litOk st n c s' h

theorem jsonRun_litOk (s : JState) (text : Str) (s' : JState) (hs : litOk s.mode = true)
    (h : jsonRun s text = some s') : litOk s'.mode = true := by
  induction text generalizing s with
  | nil =>
    rw [jsonRun] at h
    cases h
    exact hs
  | cons c r ih =>
    rw [jsonRun] at h
    cases hc : jsonStep s c with
    | none => rw [hc] at h; cases h
    | some s1 =>
      rw [hc] at h
      exact ih s1 (jsonStep_litOk s c s1 hs hc) h

theorem afterValue_quote (st : List JCtx) : afterValue st '"' = none := by
  cases st with
  | nil => rfl
  | cons a r => cases a <;> rfl

theorem jsonRun_str_quoteTail (st : List JCtx) (k : Bool) :
    jsonRun ⟨st, JMode.str k 0⟩ xssQuoteTail = none := by
  cases k <;> cases st with
  | nil => rfl
  | cons a r => cases a <;> rfl

theorem jsonRun_str_quoteTail_tail (st : List JCtx) (k : Bool) :
    jsonRun ⟨st, JMode.str k 0⟩ xssQuoteTail.tail = none := by
  cases k <;> cases st with
  | nil => rfl
  | cons a r => cases a <;> rfl

theorem jsonRun_quoteTail (s : JState) (hs : litOk s.mode = true) :
    jsonRun s xssQuoteTail = none := by
  rcases s with ⟨st, mode⟩
  have hcons : xssQuoteTail = '"' :: xssQuoteTail.tail := rfl
  cases mode with
  | value =>
    rw [hcons, jsonRun]
    exact jsonRun_str_quoteTail_tail st false
  | valueOrEnd =>
    rw [hcons, jsonRun]
    exact jsonRun_str_quoteTail_tail st false
  | keyOrEnd =>
    rw [hcons, jsonRun]
    exact jsonRun_str_quoteTail_tail st true
  | key =>
    rw [hcons, jsonRun]
    exact jsonRun_str_quoteTail_tail st true
  | colon => rfl
  | after =>
    rw [hcons, jsonRun]
    show (match afterValue st '"' with | none => none | some s' => jsonRun s' _) = none
    rw [afterValue_quote]
  | str k n =>
    match n with
    | 0 => exact jsonRun_str_quoteTail st k
    | 1 =>
      rw [hcons, jsonRun]
      exact jsonRun_str_quoteTail_tail st k
    | n + 2 => rfl
  | lit r =>
    cases r with
    | nil => rfl
    | cons x r =>
      have hx := (litOk_tail x r hs).2
      rw [hcons, jsonRun]
      have : jsonStep ⟨st, JMode.lit (x :: r)⟩ '"' = none := by
        simp only [jsonStep]
        rw [if_neg (fun e => hx e.symm)]
      rw [this]
  | num n =>
    rw [hcons, jsonRun]
    have : jsonStep ⟨st, JMode.num n⟩ '"' = none := by
      simp [jsonStep, stepNum, afterValue_quote, isDigit]
    rw [this]

theorem jsonRun_start_litOk (text : Str) (s : JState)
    (h : jsonRun ⟨[], JMode.value⟩ text = some s) : litOk s.mode = true :=
  jsonRun_litOk ⟨[], JMode.value⟩ text s rfl h

theorem xssLine_quote_eq (filename : Str) (n : Nat) :
    xssLine filename "istener(\"message)".toList n =
      ("\x7b\"filename\": \"".toList ++ filename)
        ++ (xssQuoteTail ++ (fmtInt n ++ "\x7d".toList)) := by
  have e : "\", \"kind\": \"xssSource\", \"sourceFound\": \"".toList
      ++ ("istener(\"message)".toList ++ "\", \"count\": ".toList) = xssQuoteTail := by
    decide
  rw [← e]
  simp [xssLine, List.append_assoc]

/-- Whatever the URL and the count, the `xssSource` line of the trigger
`istener("message)` is not a JSON text. -/
theorem isJson_xssLine_quote (filename : Str) (n : Nat) :
    isJson (xssLine filename "istener(\"message)".toList n) = false := by
  rw [xssLine_quote_eq]
  unfold isJson
  rw [jsonRun_append]
  cases h : jsonRun ⟨[], JMode.value⟩ ("\x7b\"filename\": \"".toList ++ filename) with
  | none => rfl
  | some s =>
    have hs := jsonRun_start_litOk _ s h
    show (match jsonRun s (xssQuoteTail ++ (fmtInt n ++ "\x7d".toList)) with
      | none => false
      | some s => _) = false
    rw [jsonRun_append, jsonRun_quoteTail s hs]
    rfl

/-- C3: when the built-in patterns parse and the lower-cased source contains
the trigger `istener("message)`, the scan publishes the `xssSource` line of
that trigger, and that line is not a JSON text, whatever the URL of the
document and the count: the trigger is inserted as it is and its double quote
ends the string.  The same happens for a job URL with a double quote, such as
`http://a/?q="`, which the dispatcher accepts: with the source
`location.hash` the one line published is rejected.  The line for
`http://a` and `location.hash` is a JSON object. -/
theorem xss_line_not_json {α β π σ : Type} (d : Deps α β π σ) (filename source : Str) (p : π)
    (hparse : d.parseUserPatterns patternsJson = Except.ok p)
    (hc : contains (toLower d.unicodeToLower source) "istener(\"message)".toList = true) :
    Event.output (xssLine filename "istener(\"message)".toList
        (count (toLower d.unicodeToLower source) "istener(\"message)".toList)) ∈
      extractURLsAndSecrets d filename source
    ∧ (∀ n, isJson (xssLine filename "istener(\"message)".toList n) = false)
    ∧ validScheme quoteJob = true
    ∧ xssLoop d.unicodeToLower quoteJob "location.hash".toList domXssStrings =
        [Event.output ("\x7b\"filename\": \"http://a/?q=\"\", \"kind\": \"xssSource\", "
          ++ "\"sourceFound\": \"location.hash\", \"count\": 1\x7d").toList]
    ∧ isJsonObject ("\x7b\"filename\": \"http://a/?q=\"\", \"kind\": \"xssSource\", "
          ++ "\"sourceFound\": \"location.hash\", \"count\": 1\x7d").toList = false
    ∧ xssLoop d.unicodeToLower sampleJob "location.hash".toList domXssStrings =
        [Event.output ("\x7b\"filename\": \"http://a\", \"kind\": \"xssSource\", "
          ++ "\"sourceFound\": \"location.hash\", \"count\": 1\x7d").toList]
    ∧ isJsonObject ("\x7b\"filename\": \"http://a\", \"kind\": \"xssSource\", "
          ++ "\"sourceFound\": \"location.hash\", \"count\": 1\x7d").toList = true := by
  refine ⟨?_, isJson_xssLine_quote filename, by decide, ?_, by decide, ?_, by decide⟩
  · rw [extract_of_parse d filename source p hparse]
    apply List.mem_append_right
    exact xss_mem d.unicodeToLower filename source _ (by decide) hc
  · rw [xssLoop_eq, toLower_hashSource]
    rfl
  · rw [xssLoop_eq, toLower_hashSource]
    rfl

/-- The sample document with the trigger `istener("message)`: the line the
scan publishes for it, which the recogniser of JSON rejects. -/
theorem xss_line_not_json_witness :
    Event.output ("\x7b\"filename\": \"http://a\", \"kind\": \"xssSource\", "
        ++ "\"sourceFound\": \"istener(\"message)\", \"count\": 1\x7d").toList ∈
      extractURLsAndSecrets sampleDeps sampleJob quoteSource
    ∧ isJsonObject ("\x7b\"filename\": \"http://a\", \"kind\": \"xssSource\", "
        ++ "\"sourceFound\": \"istener(\"message)\", \"count\": 1\x7d").toList = false :=
  ⟨(xss_line_not_json sampleDeps sampleJob quoteSource () rfl (by decide)).1, by decide⟩

end Jsjs
